import Mathlib

set_option synthInstance.maxSize 512

/-
Shallow embedding of the transaction command processor in
`src/storage/txn/process.rs` (TiKV transaction layer).

The MVCC primitives (`MvccTxn`, `MvccReader`), the key hashing function
(`Key::gen_hash`) and the storage engine are external collaborators of this
file; they are abstracted as oracle parameters: every call the processor makes
into the MVCC layer is represented by a function supplied as input, and the
theorems quantify over all oracles.  A Rust `panic!` (including an
out-of-bounds `Vec` index and a failed `assert!`) is modelled by the
`PRes.panicked` result; `Result::Err` propagation by `PRes.err`.

Timestamps are natural numbers (`TimeStamp::zero()` is `0`), raw keys are
lists of naturals (byte strings), and a buffered modification (`Modify`) is
represented by its write size in bytes, so that `MvccTxn::write_size` is the
sum of the buffered modifications.
-/

namespace TxnProcess

/-- Raw byte string of a key. -/
abbrev RawKey := List Nat

/-- `TimeStamp`: a 64-bit value from the oracle; `0` denotes `TimeStamp::zero()`. -/
abbrev TS := Nat

/-- One buffered column-family write, represented by its byte size. -/
abbrev Modify := Nat

/-- `MvccTxn::write_size` of a list of buffered modifications. -/
def listWriteSize (mods : List Modify) : Nat := mods.sum

/-- Lexicographic byte-string comparison, the order used by `Key::cmp`. -/
def keyLe : RawKey → RawKey → Bool
  | [], _ => true
  | _ :: _, [] => false
  | a :: as, b :: bs => if a < b then true else if b < a then false else keyLe as bs

/-- `Key::append_ts`: appends the timestamp encoding to the encoded key. -/
def appendTs (k : RawKey) (ts : TS) : RawKey := k ++ [ts]

/-- `kvproto::kvrpcpb::LockInfo` (the fields used by the processor). -/
structure LockInfo where
  primaryLock : RawKey := []
  lockVersion : TS := 0
  key : RawKey := []
  lockTtl : Nat := 0
  txnSize : Nat := 0
deriving DecidableEq, Repr

/-- `lock_manager::Lock`, the waiter-manager identity of a lock. -/
structure Lock where
  ts : TS
  hash : Nat
deriving DecidableEq, Repr

/-- A lock-column-family record (`mvcc::Lock`), the fields read by the processor. -/
structure LockRec where
  ts : TS
  forUpdateTs : TS := 0
deriving DecidableEq, Repr

/-- `mvcc::ErrorInner`: `KeyIsLocked` is handled specially; every other MVCC
error is collapsed to `other` with an opaque code so that propagation is
observable. -/
inductive MvccErr where
  | keyIsLocked (info : LockInfo)
  | other (code : Nat)
deriving DecidableEq, Repr

/-- `txn::ErrorInner`: the errors raised or propagated by the write processor. -/
inductive TxnError where
  | invalidTxnTso (startTs commitTs : TS)
  | mvcc (e : MvccErr)
deriving DecidableEq, Repr

/-- `storage::ErrorInner` (the `Txn` wrapping used when accumulating locks). -/
inductive StorageError where
  | txn (e : TxnError)
deriving DecidableEq, Repr

/-- `StorageResult<()>`. -/
inductive StorageResult where
  | ok
  | err (e : StorageError)
deriving DecidableEq, Repr

/-- The `StorageResult<()>` that the mutation loops push for a `KeyIsLocked`
conflict: `e.map_err(Error::from).map_err(StorageError::from)`. -/
def key_is_locked_err (info : LockInfo) : StorageResult :=
  .err (.txn (.mvcc (.keyIsLocked info)))

/-- `ScanMode` (only `Forward` is requested by this file). -/
inductive ScanMode where
  | forward
deriving DecidableEq, Repr

/-- `storage::Options`, the fields read by the write processor. -/
structure Options where
  forUpdateTs : TS := 0
  skipConstraintCheck : Bool := false
  isPessimisticLock : List Bool := []
  isFirstLock : Bool := false
  waitTimeout : Int := 0
deriving DecidableEq, Repr

/-- A prewrite mutation; the processor only inspects its key. -/
structure Mutation where
  key : RawKey
  value : RawKey := []
deriving DecidableEq, Repr

/-- `storage::TxnStatus`. -/
inductive TxnStatus where
  | rolledBack
  | ttlExpire
  | lockNotExist
  | committed (commitTs : TS)
  | uncommitted (lockTtl : Nat) (minCommitTs : TS)
deriving DecidableEq, Repr

/-- `TxnStatus::committed`. -/
def TxnStatus.committedOf (commitTs : TS) : TxnStatus := .committed commitTs

/-- `CommandKind`: the write-path variants plus the data of the `ResolveLock`
variant shared with the read path. -/
inductive CommandKind where
  | prewrite (mutations : List Mutation) (primary : RawKey) (startTs : TS) (options : Options)
  | acquirePessimisticLock (keys : List (RawKey × Bool)) (primary : RawKey) (startTs : TS)
      (options : Options)
  | commit (keys : List RawKey) (lockTs : TS) (commitTs : TS)
  | cleanup (key : RawKey) (startTs : TS) (currentTs : TS)
  | rollback (keys : List RawKey) (startTs : TS)
  | pessimisticRollback (keys : List RawKey) (startTs : TS) (forUpdateTs : TS)
  | resolveLock (txnStatus : List (TS × TS)) (scanKey : Option RawKey)
      (keyLocks : List (RawKey × LockRec))
  | resolveLockLite (startTs : TS) (commitTs : TS) (resolveKeys : List RawKey)
  | txnHeartBeat (primaryKey : RawKey) (startTs : TS) (adviseTtl : Nat)
  | checkTxnStatus (primaryKey : RawKey) (lockTs : TS) (callerStartTs : TS) (currentTs : TS)
      (rollbackIfNotExist : Bool)
  | pause (duration : Nat)
deriving DecidableEq, Repr

/-- `ProcessResult` (write-path constructors). -/
inductive ProcessResult where
  | res
  | multiRes (results : List StorageResult)
  | txnStatusRes (txnStatus : TxnStatus)
  | nextCommand (cmd : CommandKind)
deriving DecidableEq, Repr

/-- `WriteResult` (the command context is not modelled; it is threaded through
unchanged by the source). -/
structure WriteResult where
  toBeWrite : List Modify
  rows : Nat
  pr : ProcessResult
  lockInfo : Option (Lock × Bool × Int)
deriving DecidableEq, Repr

/-- One `LockManager::wake_up` invocation, recorded with its arguments. -/
structure WakeUpCall where
  lockTs : TS
  keyHashes : Option (List Nat)
  commitTs : TS
  isPessimisticTxn : Bool
deriving DecidableEq, Repr

/-- The lock manager, as observed by this file: only `has_waiter` is read;
`wake_up` invocations are recorded in the output. -/
structure LockMgr where
  hasWaiter : Bool
deriving DecidableEq, Repr

/-- The value of a successful `process_write_impl` run: the `WriteResult`
together with the `wake_up` calls that were issued during it. -/
structure WriteOutput where
  result : WriteResult
  wakeUps : List WakeUpCall
deriving DecidableEq, Repr

/-- Result of running the write processor: success, a propagated `Err`, or a
Rust `panic!`. -/
inductive PRes (α : Type) where
  | ok (a : α)
  | err (e : TxnError)
  | panicked
deriving DecidableEq, Repr

def FORWARD_MIN_MUTATIONS_NUM : Nat := 12

def RESOLVE_LOCK_BATCH_SIZE : Nat := 256

/-- Modelled from the spec: `MAX_TXN_WRITE_SIZE` is supplied by the MVCC layer
(engine-defined, ~32 KB). -/
def MAX_TXN_WRITE_SIZE : Nat := 32 * 1024

/-- `gen_key_hashes_if_needed`: hashes the keys only when a lock manager is
present and it has waiters. -/
def gen_key_hashes_if_needed (hash : RawKey → Nat) (lockMgr : Option LockMgr)
    (keys : List RawKey) : Option (List Nat) :=
  match lockMgr with
  | some lm => if lm.hasWaiter then some (keys.map hash) else none
  | none => none

/-- `wake_up_waiters_if_needed`: issues one `wake_up` call whenever a lock
manager is present. -/
def wake_up_waiters_if_needed (lockMgr : Option LockMgr) (lockTs : TS)
    (keyHashes : Option (List Nat)) (commitTs : TS) (isPessimisticTxn : Bool) :
    List WakeUpCall :=
  match lockMgr with
  | some _ => [⟨lockTs, keyHashes, commitTs, isPessimisticTxn⟩]
  | none => []

/-- `extract_lock_from_result`: destructures the nested error wrappers around a
`KeyIsLocked` and builds the waiter-manager lock; any other input is a
`panic!` (modelled as `none`). -/
def extract_lock_from_result (hash : RawKey → Nat) : StorageResult → Option Lock
  | .err (.txn (.mvcc (.keyIsLocked info))) => some ⟨info.lockVersion, hash info.key⟩
  | _ => none

/-- Outcome of one `prewrite` / `pessimistic_prewrite` /
`acquire_pessimistic_lock` call, including the modifications it buffers into
the transaction on success. -/
inductive PrewriteStep where
  | ok (mods : List Modify)
  | keyIsLocked (info : LockInfo)
  | otherErr (code : Nat)
deriving DecidableEq, Repr

/-- Outcome of a `commit` / `rollback` / `cleanup` call: the returned
`is_pessimistic_txn` flag and the buffered modifications, or an error. -/
inductive TxnCallRes where
  | ok (isPessimisticTxn : Bool) (mods : List Modify)
  | err (e : TxnError)
deriving DecidableEq, Repr

/-- Outcome of a `pessimistic_rollback` call (`Result<()>`). -/
inductive UnitCallRes where
  | ok (mods : List Modify)
  | err (e : TxnError)
deriving DecidableEq, Repr

/-- Outcome of a `txn_heart_beat` call (`Result<u64>`). -/
inductive TtlCallRes where
  | ok (lockTtl : Nat) (mods : List Modify)
  | err (e : TxnError)
deriving DecidableEq, Repr

/-- Outcome of a `check_txn_status` call (`Result<(TxnStatus, bool)>`). -/
inductive StatusCallRes where
  | ok (txnStatus : TxnStatus) (isPessimisticTxn : Bool) (mods : List Modify)
  | err (e : TxnError)
deriving DecidableEq, Repr

/-- The MVCC layer and engine, abstracted: one function per primitive the
write processor calls.  The first `TS` argument of the `commit`, `cleanup`,
`rollback` and `pessimisticRollback` oracles is the `start_ts` the
`MvccTxn` was constructed with. -/
structure MvccOracle where
  hasDataInRange : RawKey → RawKey → Bool
  prewriteStep : Mutation → Options → PrewriteStep
  pessimisticPrewriteStep : Mutation → Bool → Options → PrewriteStep
  acquireStep : RawKey → Bool → Options → PrewriteStep
  commitStep : TS → RawKey → TS → TxnCallRes
  cleanupStep : TS → RawKey → TS → TxnCallRes
  rollbackStep : TS → RawKey → TxnCallRes
  pessimisticRollbackStep : TS → RawKey → TS → UnitCallRes
  txnHeartBeatStep : TS → RawKey → Nat → TtlCallRes
  checkTxnStatusStep : TS → RawKey → TS → TS → Bool → StatusCallRes

/-- Key order used by the prewrite fast path: `a.key().cmp(b.key())`. -/
def mutLe (a b : Mutation) : Prop := keyLe a.key b.key = true

instance : DecidableRel mutLe := fun a b => inferInstanceAs (Decidable (_ = true))

/-- Result of the prewrite fast-path heuristic (lines 488-518): the
(possibly sorted) mutations, the (possibly updated) options, and the scan mode
the MVCC transaction is constructed with. -/
structure PrewriteSetup where
  mutations : List Mutation
  options : Options
  scanMode : Option ScanMode
deriving DecidableEq, Repr

/-- The prewrite fast-path heuristic: optimistic only, more than
`FORWARD_MIN_MUTATIONS_NUM` mutations, sort ascending by key, and skip the
constraint check in forward scan mode when the write column family has no
data in `[left_key, right_key.append_ts(0))`. -/
def prewrite_setup (hasDataInRange : RawKey → RawKey → Bool)
    (mutations : List Mutation) (options : Options) : PrewriteSetup :=
  if options.forUpdateTs = 0 ∧ mutations.length > FORWARD_MIN_MUTATIONS_NUM then
    match List.insertionSort mutLe mutations with
    | [] => ⟨[], options, none⟩
    | m0 :: rest =>
      let leftKey := m0.key
      let rightKey := appendTs (List.getLastD rest m0).key 0
      if hasDataInRange leftKey rightKey then ⟨m0 :: rest, options, none⟩
      else ⟨m0 :: rest, { options with skipConstraintCheck := true }, some ScanMode.forward⟩
  else ⟨mutations, options, none⟩

/-- The optimistic prewrite mutation loop (lines 522-531): `KeyIsLocked` is
accumulated and the loop continues; any other error aborts. -/
def prewrite_loop (step : Mutation → PrewriteStep) :
    List Mutation → List Modify → List StorageResult →
    PRes (List Modify × List StorageResult)
  | [], mods, locks => .ok (mods, locks)
  | m :: rest, mods, locks =>
    match step m with
    | .ok ms => prewrite_loop step rest (mods ++ ms) locks
    | .keyIsLocked info => prewrite_loop step rest mods (locks ++ [key_is_locked_err info])
    | .otherErr code => .err (.mvcc (.other code))

/-- The pessimistic prewrite mutation loop (lines 533-546): identical to the
optimistic loop except that iteration `i` indexes
`options.is_pessimistic_lock[i]`, which panics when out of bounds. -/
def pessimistic_prewrite_loop (step : Mutation → Bool → PrewriteStep)
    (isPessimisticLock : List Bool) :
    List Mutation → Nat → List Modify → List StorageResult →
    PRes (List Modify × List StorageResult)
  | [], _, mods, locks => .ok (mods, locks)
  | m :: rest, i, mods, locks =>
    match isPessimisticLock[i]? with
    | none => .panicked
    | some b =>
      match step m b with
      | .ok ms => pessimistic_prewrite_loop step isPessimisticLock rest (i + 1) (mods ++ ms) locks
      | .keyIsLocked info =>
          pessimistic_prewrite_loop step isPessimisticLock rest (i + 1) mods
            (locks ++ [key_is_locked_err info])
      | .otherErr code => .err (.mvcc (.other code))

/-- The `AcquirePessimisticLock` key loop (lines 570-579): the first
`KeyIsLocked` is recorded and the loop breaks. -/
def acquire_pessimistic_lock_loop (step : RawKey → Bool → PrewriteStep) :
    List (RawKey × Bool) → List Modify → PRes (List Modify × List StorageResult)
  | [], mods => .ok (mods, [])
  | (k, shouldNotExist) :: rest, mods =>
    match step k shouldNotExist with
    | .ok ms => acquire_pessimistic_lock_loop step rest (mods ++ ms)
    | .keyIsLocked info => .ok (mods, [key_is_locked_err info])
    | .otherErr code => .err (.mvcc (.other code))

/-- A per-key loop that overwrites `is_pessimistic_txn` with each call's
return value, as the `Commit`, `Rollback` and `ResolveLockLite` loops do. -/
def commit_loop (step : RawKey → TxnCallRes) :
    List RawKey → Bool → List Modify → PRes (Bool × List Modify)
  | [], isPessimisticTxn, mods => .ok (isPessimisticTxn, mods)
  | k :: rest, _, mods =>
    match step k with
    | .ok b ms => commit_loop step rest b (mods ++ ms)
    | .err e => .err e

/-- The `PessimisticRollback` key loop (lines 682-684). -/
def pessimistic_rollback_loop (step : RawKey → UnitCallRes) :
    List RawKey → List Modify → PRes (List Modify)
  | [], mods => .ok mods
  | k :: rest, mods =>
    match step k with
    | .ok ms => pessimistic_rollback_loop step rest (mods ++ ms)
    | .err e => .err e

/-- The per-transaction bucket map of `ResolveLock`:
`(txn start_ts, is_pessimistic_txn) -> Option<key_hashes>`, as an association
list (the source uses a `HashMap`; the claims do not depend on bucket order). -/
abbrev TxnToKeys := List ((TS × Bool) × Option (List Nat))

/-- The `entry(..).and_modify(..).or_insert_with(..)` update of the
`ResolveLock` bucket map (lines 713-728). -/
def txn_to_keys_update (hasWaiter : Bool) (m : TxnToKeys) (k : TS × Bool)
    (keyHash : Nat) : TxnToKeys :=
  if m.any (fun e => e.1 == k) then
    m.map (fun e => if e.1 == k then (e.1, e.2.map (fun hs => hs ++ [keyHash])) else e)
  else
    m ++ [(k, if hasWaiter then some [keyHash] else none)]

/-- The commit-or-rollback call on one `ResolveLock` entry (lines 736-750):
`status > 0` requires `lock.ts < status` (else `InvalidTxnTso`) and commits;
`status == 0` rolls back. -/
def resolve_key_call (commitStep : TS → RawKey → TS → TxnCallRes)
    (rollbackStep : TS → RawKey → TxnCallRes) (currentKey : RawKey)
    (currentLock : LockRec) (commitTs : TS) : PRes (List Modify) :=
  if commitTs ≠ 0 then
    if currentLock.ts ≥ commitTs then .err (.invalidTxnTso currentLock.ts commitTs)
    else
      match commitStep currentLock.ts currentKey commitTs with
      | .ok _ ms => .ok ms
      | .err e => .err e
  else
    match rollbackStep currentLock.ts currentKey with
    | .ok _ ms => .ok ms
    | .err e => .err e

/-- The `ResolveLock` write-phase loop over `key_locks` (lines 712-760):
accumulates bucket updates and modifications, and breaks remembering
`scan_key = current_key` once the accumulated write size reaches
`MAX_TXN_WRITE_SIZE`.  A missing `txn_status` entry is a `panic!`. -/
def resolve_loop (hash : RawKey → Nat) (hasWaiter : Bool)
    (commitStep : TS → RawKey → TS → TxnCallRes)
    (rollbackStep : TS → RawKey → TxnCallRes) (txnStatus : List (TS × TS)) :
    List (RawKey × LockRec) → Option TxnToKeys → List Modify → Nat → Option RawKey →
    PRes (Option TxnToKeys × List Modify × Option RawKey)
  | [], t, mods, _, scanKey => .ok (t, mods, scanKey)
  | (currentKey, currentLock) :: rest, t, mods, writeSize, scanKey =>
    let t := t.map (fun m =>
      txn_to_keys_update hasWaiter m (currentLock.ts, currentLock.forUpdateTs != 0)
        (hash currentKey))
    match txnStatus.lookup currentLock.ts with
    | none => .panicked
    | some commitTs =>
      match resolve_key_call commitStep rollbackStep currentKey currentLock commitTs with
      | .panicked => .panicked
      | .err e => .err e
      | .ok ms =>
        let writeSize := writeSize + listWriteSize ms
        let mods := mods ++ ms
        if writeSize ≥ MAX_TXN_WRITE_SIZE then .ok (t, mods, some currentKey)
        else resolve_loop hash hasWaiter commitStep rollbackStep txnStatus rest t mods
          writeSize scanKey

/-- The wake-up pass over the `ResolveLock` bucket map (lines 761-773): one
`wake_up_waiters_if_needed` call per `(start_ts, is_pessimistic_txn)` bucket. -/
def resolve_wake_ups (lockMgr : Option LockMgr) : Option TxnToKeys → List WakeUpCall
  | some m =>
    m.foldr (fun e acc => wake_up_waiters_if_needed lockMgr e.1.1 e.2 0 e.1.2 ++ acc) []
  | none => []

/-- `process_write_impl` (lines 474-888): one arm per write command kind,
producing the `WriteResult` tuple and the `wake_up` calls issued. -/
def process_write_impl (hash : RawKey → Nat) (o : MvccOracle) (lockMgr : Option LockMgr) :
    CommandKind → PRes WriteOutput
  | .prewrite mutations _primary _startTs options =>
    let setup := prewrite_setup o.hasDataInRange mutations options
    let rows := mutations.length
    let loopRes :=
      if options.forUpdateTs = 0 then
        prewrite_loop (fun m => o.prewriteStep m setup.options) setup.mutations [] []
      else
        pessimistic_prewrite_loop (fun m b => o.pessimisticPrewriteStep m b setup.options)
          setup.options.isPessimisticLock setup.mutations 0 [] []
    match loopRes with
    | .panicked => .panicked
    | .err e => .err e
    | .ok (mods, locks) =>
      if locks.isEmpty then .ok ⟨⟨mods, rows, .multiRes [], none⟩, []⟩
      else .ok ⟨⟨[], 0, .multiRes locks, none⟩, []⟩
  | .acquirePessimisticLock keys _primary _startTs options =>
    let rows := keys.length
    match acquire_pessimistic_lock_loop (fun k sne => o.acquireStep k sne options) keys [] with
    | .panicked => .panicked
    | .err e => .err e
    | .ok (mods, locks) =>
      match locks with
      | [] => .ok ⟨⟨mods, rows, .multiRes [], none⟩, []⟩
      | l0 :: _ =>
        match extract_lock_from_result hash l0 with
        | none => .panicked
        | some lock =>
          .ok ⟨⟨[], 0, .multiRes locks, some (lock, options.isFirstLock, options.waitTimeout)⟩, []⟩
  | .commit keys lockTs commitTs =>
    if commitTs ≤ lockTs then .err (.invalidTxnTso lockTs commitTs)
    else
      let keyHashes := gen_key_hashes_if_needed hash lockMgr keys
      let rows := keys.length
      match commit_loop (fun k => o.commitStep lockTs k commitTs) keys false [] with
      | .panicked => .panicked
      | .err e => .err e
      | .ok (isPessimisticTxn, mods) =>
        .ok ⟨⟨mods, rows, .txnStatusRes (.committed commitTs), none⟩,
          wake_up_waiters_if_needed lockMgr lockTs keyHashes commitTs isPessimisticTxn⟩
  | .cleanup key startTs currentTs =>
    let keyHashes := gen_key_hashes_if_needed hash lockMgr [key]
    match o.cleanupStep startTs key currentTs with
    | .ok isPessimisticTxn mods =>
      .ok ⟨⟨mods, 1, .res, none⟩,
        wake_up_waiters_if_needed lockMgr startTs keyHashes 0 isPessimisticTxn⟩
    | .err e => .err e
  | .rollback keys startTs =>
    let keyHashes := gen_key_hashes_if_needed hash lockMgr keys
    let rows := keys.length
    match commit_loop (fun k => o.rollbackStep startTs k) keys false [] with
    | .panicked => .panicked
    | .err e => .err e
    | .ok (isPessimisticTxn, mods) =>
      .ok ⟨⟨mods, rows, .res, none⟩,
        wake_up_waiters_if_needed lockMgr startTs keyHashes 0 isPessimisticTxn⟩
  | .pessimisticRollback keys startTs forUpdateTs =>
    match lockMgr with
    | none => .panicked
    | some _ =>
      let keyHashes := gen_key_hashes_if_needed hash lockMgr keys
      let rows := keys.length
      match pessimistic_rollback_loop (fun k => o.pessimisticRollbackStep startTs k forUpdateTs)
          keys [] with
      | .panicked => .panicked
      | .err e => .err e
      | .ok mods =>
        .ok ⟨⟨mods, rows, .multiRes [], none⟩,
          wake_up_waiters_if_needed lockMgr startTs keyHashes 0 true⟩
  | .resolveLock txnStatus scanKey keyLocks =>
    let hasWaiter := match lockMgr with
      | some lm => lm.hasWaiter
      | none => false
    let txnToKeys : Option TxnToKeys := match lockMgr with
      | some _ => some []
      | none => none
    let rows := keyLocks.length
    match resolve_loop hash hasWaiter o.commitStep o.rollbackStep txnStatus keyLocks
        txnToKeys [] 0 scanKey with
    | .panicked => .panicked
    | .err e => .err e
    | .ok (t, mods, scanKeyOut) =>
      let wakeUps := resolve_wake_ups lockMgr t
      let pr := match scanKeyOut with
        | none => ProcessResult.res
        | some k => ProcessResult.nextCommand (.resolveLock txnStatus (some k) [])
      .ok ⟨⟨mods, rows, pr, none⟩, wakeUps⟩
  | .resolveLockLite startTs commitTs resolveKeys =>
    let keyHashes := gen_key_hashes_if_needed hash lockMgr resolveKeys
    let rows := resolveKeys.length
    match commit_loop
        (fun k => if commitTs ≠ 0 then o.commitStep startTs k commitTs
                  else o.rollbackStep startTs k) resolveKeys false [] with
    | .panicked => .panicked
    | .err e => .err e
    | .ok (isPessimisticTxn, mods) =>
      .ok ⟨⟨mods, rows, .res, none⟩,
        wake_up_waiters_if_needed lockMgr startTs keyHashes commitTs isPessimisticTxn⟩
  | .txnHeartBeat primaryKey startTs adviseTtl =>
    match o.txnHeartBeatStep startTs primaryKey adviseTtl with
    | .ok lockTtl mods =>
      .ok ⟨⟨mods, 1, .txnStatusRes (.uncommitted lockTtl 0), none⟩, []⟩
    | .err e => .err e
  | .checkTxnStatus primaryKey lockTs callerStartTs currentTs rollbackIfNotExist =>
    match o.checkTxnStatusStep lockTs primaryKey callerStartTs currentTs rollbackIfNotExist with
    | .err e => .err e
    | .ok txnStatus isPessimisticTxn mods =>
      let wakeUps := match txnStatus with
        | .ttlExpire | .lockNotExist =>
          wake_up_waiters_if_needed lockMgr lockTs
            (gen_key_hashes_if_needed hash lockMgr [primaryKey]) 0 isPessimisticTxn
        | _ => []
      .ok ⟨⟨mods, 1, .txnStatusRes txnStatus, none⟩, wakeUps⟩
  | .pause _duration => .ok ⟨⟨[], 0, .res, none⟩, []⟩

/-- Scanning core of `scan_locks`: walk the (ascending) lock records, keep
those passing the filter, and stop early with `has_remain = true` once the
limit is reached. -/
def scan_locks_go (filter : LockRec → Bool) (limit : Nat) :
    List (RawKey × LockRec) → List (RawKey × LockRec) → Nat →
    List (RawKey × LockRec) × Bool
  | [], acc, _ => (acc.reverse, false)
  | kl :: rest, acc, cnt =>
    if filter kl.2 then
      if 0 < limit ∧ cnt + 1 = limit then ((kl :: acc).reverse, true)
      else scan_locks_go filter limit rest (kl :: acc) (cnt + 1)
    else scan_locks_go filter limit rest acc cnt

/-- Modelled from the spec: `MvccReader::scan_locks` is part of the MVCC layer
and not under `src/`; per the spec it scans up to `limit` locks satisfying the
filter starting from `scan_key`, reporting whether the scan was truncated.
The lock column family is represented by its list of `(key, lock)` records in
ascending key order; a `scan_key` seeks to the first record at or after it. -/
def scan_locks (lockCF : List (RawKey × LockRec)) (scanKey : Option RawKey)
    (filter : LockRec → Bool) (limit : Nat) : List (RawKey × LockRec) × Bool :=
  let tail := match scanKey with
    | none => lockCF
    | some s => lockCF.filter (fun kl => keyLe s kl.1)
  scan_locks_go filter limit tail [] 0

/-- The `ResolveLock` arm of `process_read_impl` (lines 379-420): scan a batch
of locks belonging to `txn_status` transactions and hand them to the write
phase via `NextCommand`. -/
def process_read_resolve_lock (lockCF : List (RawKey × LockRec))
    (txnStatus : List (TS × TS)) (scanKey : Option RawKey) : ProcessResult :=
  let scanned := scan_locks lockCF scanKey
    (fun lock => (txnStatus.lookup lock.ts).isSome) RESOLVE_LOCK_BATCH_SIZE
  let kvPairs := scanned.1
  let hasRemain := scanned.2
  if kvPairs.isEmpty then .res
  else
    let nextScanKey := if hasRemain then kvPairs.getLast?.map Prod.fst else none
    .nextCommand (.resolveLock txnStatus nextScanKey kvPairs)

/-- A concrete key-hash function for witnesses (the real `Key::gen_hash` is an
external collaborator; all general theorems quantify over the hash). -/
def hash0 : RawKey → Nat := fun k => k.sum + k.length

/-- A concrete oracle for witnesses: every MVCC call succeeds and buffers
nothing. -/
def oracle0 : MvccOracle where
  hasDataInRange := fun _ _ => false
  prewriteStep := fun _ _ => .ok []
  pessimisticPrewriteStep := fun _ _ _ => .ok []
  acquireStep := fun _ _ _ => .ok []
  commitStep := fun _ _ _ => .ok false []
  cleanupStep := fun _ _ _ => .ok false []
  rollbackStep := fun _ _ => .ok false []
  pessimisticRollbackStep := fun _ _ _ => .ok []
  txnHeartBeatStep := fun _ _ _ => .ok 0 []
  checkTxnStatusStep := fun _ _ _ _ _ => .ok .rolledBack false []

/-- Whether a prewrite-shaped call outcome is a fatal (batch-aborting) error,
i.e. neither success nor `KeyIsLocked`. -/
def PrewriteStep.fatal : PrewriteStep → Bool
  | .otherErr _ => true
  | _ => false

/-- Whether a prewrite-shaped call outcome is a success. -/
def PrewriteStep.isOk : PrewriteStep → Bool
  | .ok _ => true
  | _ => false

/-- Whether a commit-shaped call outcome is a success. -/
def TxnCallRes.isOk : TxnCallRes → Bool
  | .ok _ _ => true
  | .err _ => false

/-- The modifications buffered by a sequence of successful or `KeyIsLocked`
calls (`KeyIsLocked` and failed calls buffer nothing). -/
def stepMods {α : Type} (step : α → PrewriteStep) : List α → List Modify
  | [] => []
  | x :: xs =>
    (match step x with
     | .ok ms => ms
     | _ => []) ++ stepMods step xs

/-- The `KeyIsLocked` results a sequence of calls accumulates into `locks`,
in call order. -/
def stepLockErrs {α : Type} (step : α → PrewriteStep) : List α → List StorageResult
  | [] => []
  | x :: xs =>
    (match step x with
     | .keyIsLocked info => [key_is_locked_err info]
     | _ => []) ++ stepLockErrs step xs

/-- The modifications buffered by a sequence of successful `commit`-shaped
calls. -/
def commitMods (step : RawKey → TxnCallRes) : List RawKey → List Modify
  | [] => []
  | k :: ks =>
    (match step k with
     | .ok _ ms => ms
     | _ => []) ++ commitMods step ks

/-! ## Theorems -/

/-- Claim C1: a `Commit` command with `commit_ts <= lock_ts` returns
`InvalidTxnTso{start_ts: lock_ts, commit_ts}` before performing any per-key
commit (the result is this error for every oracle, so no `commit` call can
have been consulted); and whenever the `ResolveLock` write-phase loop reaches
an entry whose `txn_status` value `status` is positive and whose lock has
`ts >= status`, it returns `InvalidTxnTso{start_ts: lock.ts, commit_ts:
status}` instead of committing that key. -/
theorem commit_and_resolve_invalid_txn_tso :
    (∀ (hash : RawKey → Nat) (o : MvccOracle) (lockMgr : Option LockMgr)
        (keys : List RawKey) (lockTs commitTs : TS),
        commitTs ≤ lockTs →
        process_write_impl hash o lockMgr (.commit keys lockTs commitTs) =
          .err (.invalidTxnTso lockTs commitTs)) ∧
    (∀ (hash : RawKey → Nat) (hasWaiter : Bool)
        (commitStep : TS → RawKey → TS → TxnCallRes)
        (rollbackStep : TS → RawKey → TxnCallRes) (txnStatus : List (TS × TS))
        (currentKey : RawKey) (currentLock : LockRec)
        (rest : List (RawKey × LockRec)) (t : Option TxnToKeys)
        (mods : List Modify) (writeSize : Nat) (scanKey : Option RawKey)
        (status : TS),
        txnStatus.lookup currentLock.ts = some status → status ≠ 0 →
        currentLock.ts ≥ status →
        resolve_loop hash hasWaiter commitStep rollbackStep txnStatus
            ((currentKey, currentLock) :: rest) t mods writeSize scanKey =
          .err (.invalidTxnTso currentLock.ts status)) := by
  constructor
  · intro hash o lockMgr keys lockTs commitTs h
    simp [process_write_impl, h]
  · intro hash hw cs rs txnStatus ck cl rest t mods ws sk s hlook hs hge
    simp [resolve_loop, hlook, resolve_key_call, hs, hge]

/-- Witness for C1 at concrete inputs: `Commit{lock_ts=5, commit_ts=5}` and a
resolve entry with `lock.ts = 7` and positive status `7`. -/
theorem commit_and_resolve_invalid_txn_tso_witness :
    process_write_impl hash0 oracle0 none (.commit [[1]] 5 5) =
      .err (.invalidTxnTso 5 5) ∧
    resolve_loop hash0 false oracle0.commitStep oracle0.rollbackStep [(7, 7)]
        [([1], ⟨7, 0⟩)] none [] 0 none = .err (.invalidTxnTso 7 7) :=
  ⟨commit_and_resolve_invalid_txn_tso.1 hash0 oracle0 none [[1]] 5 5 (by decide),
   commit_and_resolve_invalid_txn_tso.2 hash0 false oracle0.commitStep
     oracle0.rollbackStep [(7, 7)] [1] ⟨7, 0⟩ [] none [] 0 none 7 (by decide)
     (by decide) (by decide)⟩

/-- Claim C8: `extract_lock_from_result` on an error wrapping an MVCC
`KeyIsLocked(info)` returns the lock `{ts = info.lock_version, hash =
hash(info.key)}`; on any other input it panics (modelled as `none`). -/
theorem extract_lock_from_result_spec :
    (∀ (hash : RawKey → Nat) (info : LockInfo),
        extract_lock_from_result hash (key_is_locked_err info) =
          some ⟨info.lockVersion, hash info.key⟩) ∧
    (∀ (hash : RawKey → Nat) (r : StorageResult),
        (∀ info : LockInfo, r ≠ key_is_locked_err info) →
        extract_lock_from_result hash r = none) := by
  constructor
  · intro hash info; rfl
  · intro hash r h
    match r with
    | .ok => rfl
    | .err (.txn (.invalidTxnTso a b)) => rfl
    | .err (.txn (.mvcc (.other c))) => rfl
    | .err (.txn (.mvcc (.keyIsLocked info))) => exact absurd rfl (h info)

/-- Witness for C8: a `KeyIsLocked` with key `"key"` (bytes `[107, 101, 121]`)
and `lock_version = 100` yields `{ts = 100, hash = hash("key")}`, and a
non-`KeyIsLocked` input yields the panic marker. -/
theorem extract_lock_from_result_spec_witness :
    extract_lock_from_result hash0
        (key_is_locked_err { key := [107, 101, 121], lockVersion := 100 }) =
      some ⟨100, hash0 [107, 101, 121]⟩ ∧
    extract_lock_from_result hash0 .ok = none :=
  ⟨extract_lock_from_result_spec.1 hash0 { key := [107, 101, 121], lockVersion := 100 },
   extract_lock_from_result_spec.2 hash0 .ok
     (fun _ h => StorageResult.noConfusion h)⟩

/-- Closed form of the optimistic prewrite loop when no fatal error occurs:
every mutation is processed, modifications of successful calls accumulate,
and every `KeyIsLocked` is collected in order. -/
theorem prewrite_loop_no_fatal (step : Mutation → PrewriteStep) :
    ∀ (ms : List Mutation),
      (∀ m ∈ ms, (step m).fatal = false) →
      ∀ (mods : List Modify) (locks : List StorageResult),
        prewrite_loop step ms mods locks =
          .ok (mods ++ stepMods step ms, locks ++ stepLockErrs step ms) := by
  intro ms
  induction ms with
  | nil => intro _ mods locks; simp [prewrite_loop, stepMods, stepLockErrs]
  | cons m rest ih =>
    intro h mods locks
    have hrest := ih (fun x hx => h x (by simp [hx]))
    match hm : step m with
    | .ok l =>
      simp [prewrite_loop, hm, hrest, stepMods, stepLockErrs, List.append_assoc]
    | .keyIsLocked info =>
      simp [prewrite_loop, hm, hrest, stepMods, stepLockErrs, List.append_assoc]
    | .otherErr c =>
      have := h m (by simp)
      simp [PrewriteStep.fatal, hm] at this

/-- The optimistic prewrite loop aborts with the propagated error at the first
fatal (non-`KeyIsLocked`) failure. -/
theorem prewrite_loop_fatal (step : Mutation → PrewriteStep) :
    ∀ (pre : List Mutation) (m : Mutation) (rest : List Mutation) (c : Nat),
      (∀ x ∈ pre, (step x).fatal = false) →
      step m = .otherErr c →
      ∀ mods locks,
        prewrite_loop step (pre ++ m :: rest) mods locks = .err (.mvcc (.other c)) := by
  intro pre
  induction pre with
  | nil => intro m rest c _ hm mods locks; simp [prewrite_loop, hm]
  | cons x xs ih =>
    intro m rest c hpre hm mods locks
    have hxs := ih m rest c (fun y hy => hpre y (by simp [hy])) hm
    match hx : step x with
    | .ok l => simp [prewrite_loop, hx, hxs]
    | .keyIsLocked info => simp [prewrite_loop, hx, hxs]
    | .otherErr c2 =>
      have := hpre x (by simp)
      simp [PrewriteStep.fatal, hx] at this

/-- Closed form of the pessimistic prewrite loop when the
`is_pessimistic_lock` array is long enough and no fatal error occurs: each
mutation `i` is paired with `is_pessimistic_lock[i]`. -/
theorem pessimistic_prewrite_loop_no_fatal (step : Mutation → Bool → PrewriteStep)
    (arr : List Bool) :
    ∀ (ms : List Mutation) (i : Nat),
      i + ms.length ≤ arr.length →
      (∀ p ∈ ms.zip (arr.drop i), (step p.1 p.2).fatal = false) →
      ∀ (mods : List Modify) (locks : List StorageResult),
        pessimistic_prewrite_loop step arr ms i mods locks =
          .ok (mods ++ stepMods (fun p : Mutation × Bool => step p.1 p.2) (ms.zip (arr.drop i)),
            locks ++ stepLockErrs (fun p : Mutation × Bool => step p.1 p.2) (ms.zip (arr.drop i))) := by
  intro ms
  induction ms with
  | nil =>
    intro i _ _ mods locks
    simp [pessimistic_prewrite_loop, stepMods, stepLockErrs]
  | cons m rest ih =>
    intro i hlen h mods locks
    have hi : i < arr.length := by simp only [List.length_cons] at hlen; omega
    have hidx : arr[i]? = some arr[i] := List.getElem?_eq_getElem hi
    have hdrop : arr.drop i = arr[i] :: arr.drop (i + 1) := List.drop_eq_getElem_cons hi
    have hzip : (m :: rest).zip (arr.drop i) = (m, arr[i]) :: rest.zip (arr.drop (i + 1)) := by
      rw [hdrop, List.zip_cons_cons]
    rw [hzip] at h
    have hrest := ih (i + 1) (by simp only [List.length_cons] at hlen ⊢; omega)
      (fun p hp => h p (List.mem_cons_of_mem _ hp))
    match hm : step m arr[i] with
    | .ok l =>
      simp only [pessimistic_prewrite_loop, hidx, hm, hzip, stepMods, stepLockErrs]
      rw [hrest]
      simp [stepMods, stepLockErrs, hm, List.append_assoc]
    | .keyIsLocked info =>
      simp only [pessimistic_prewrite_loop, hidx, hm, hzip, stepMods, stepLockErrs]
      rw [hrest]
      simp [stepMods, stepLockErrs, hm, List.append_assoc]
    | .otherErr c =>
      have := h (m, arr[i]) (List.mem_cons_self _ _)
      simp [PrewriteStep.fatal, hm] at this

/-- When the `is_pessimistic_lock` array is long enough, the pessimistic
prewrite loop never panics. -/
theorem pessimistic_prewrite_loop_no_panic (step : Mutation → Bool → PrewriteStep)
    (arr : List Bool) :
    ∀ (ms : List Mutation) (i : Nat),
      i + ms.length ≤ arr.length →
      ∀ mods locks,
        pessimistic_prewrite_loop step arr ms i mods locks ≠ .panicked := by
  intro ms
  induction ms with
  | nil => intro i _ mods locks; simp [pessimistic_prewrite_loop]
  | cons m rest ih =>
    intro i hlen mods locks
    have hi : i < arr.length := by simp only [List.length_cons] at hlen; omega
    have hidx : arr[i]? = some arr[i] := List.getElem?_eq_getElem hi
    have hrest := ih (i + 1) (by simp only [List.length_cons] at hlen ⊢; omega)
    match hm : step m arr[i] with
    | .ok l => simp only [pessimistic_prewrite_loop, hidx, hm]; exact hrest _ _
    | .keyIsLocked info => simp only [pessimistic_prewrite_loop, hidx, hm]; exact hrest _ _
    | .otherErr c => simp [pessimistic_prewrite_loop, hidx, hm]

/-- When the `is_pessimistic_lock` array is shorter than the mutation list and
no preceding call fails fatally, the pessimistic prewrite loop reaches the
out-of-bounds index and panics. -/
theorem pessimistic_prewrite_loop_panics (step : Mutation → Bool → PrewriteStep)
    (arr : List Bool) :
    ∀ (ms : List Mutation) (i : Nat),
      i ≤ arr.length → arr.length < i + ms.length →
      (∀ p ∈ ms.zip (arr.drop i), (step p.1 p.2).fatal = false) →
      ∀ mods locks,
        pessimistic_prewrite_loop step arr ms i mods locks = .panicked := by
  intro ms
  induction ms with
  | nil => intro i hle hlt _ mods locks; simp at hlt; omega
  | cons m rest ih =>
    intro i hle hlt h mods locks
    by_cases hi : i < arr.length
    · have hidx : arr[i]? = some arr[i] := List.getElem?_eq_getElem hi
      have hdrop : arr.drop i = arr[i] :: arr.drop (i + 1) := List.drop_eq_getElem_cons hi
      have hzip : (m :: rest).zip (arr.drop i) = (m, arr[i]) :: rest.zip (arr.drop (i + 1)) := by
        rw [hdrop, List.zip_cons_cons]
      rw [hzip] at h
      have hrest := ih (i + 1) (by omega) (by simp only [List.length_cons] at hlt ⊢; omega)
        (fun p hp => h p (List.mem_cons_of_mem _ hp))
      match hm : step m arr[i] with
      | .ok l => simp only [pessimistic_prewrite_loop, hidx, hm]; exact hrest _ _
      | .keyIsLocked info => simp only [pessimistic_prewrite_loop, hidx, hm]; exact hrest _ _
      | .otherErr c =>
        have := h (m, arr[i]) (List.mem_cons_self _ _)
        simp [PrewriteStep.fatal, hm] at this
    · have hidx : arr[i]? = none := by
        rw [List.getElem?_eq_none_iff]; omega
      simp [pessimistic_prewrite_loop, hidx]

/-- The fast-path heuristic leaves everything unchanged unless the prewrite is
optimistic with more than `FORWARD_MIN_MUTATIONS_NUM` mutations. -/
theorem prewrite_setup_id (hasDataInRange : RawKey → RawKey → Bool)
    (mutations : List Mutation) (options : Options)
    (h : options.forUpdateTs ≠ 0 ∨ ¬ mutations.length > FORWARD_MIN_MUTATIONS_NUM) :
    prewrite_setup hasDataInRange mutations options = ⟨mutations, options, none⟩ := by
  unfold prewrite_setup
  rw [if_neg]
  rintro ⟨h1, h2⟩
  rcases h with h | h
  · exact h h1
  · exact h h2

/-- Unfolding of the `Prewrite` arm of `process_write_impl`. -/
theorem process_prewrite_eq (hash : RawKey → Nat) (o : MvccOracle)
    (lockMgr : Option LockMgr) (mutations : List Mutation) (primary : RawKey)
    (startTs : TS) (options : Options) :
    process_write_impl hash o lockMgr (.prewrite mutations primary startTs options) =
      (match (if options.forUpdateTs = 0 then
            prewrite_loop
              (fun m => o.prewriteStep m (prewrite_setup o.hasDataInRange mutations options).options)
              (prewrite_setup o.hasDataInRange mutations options).mutations [] []
          else
            pessimistic_prewrite_loop
              (fun m b => o.pessimisticPrewriteStep m b
                (prewrite_setup o.hasDataInRange mutations options).options)
              (prewrite_setup o.hasDataInRange mutations options).options.isPessimisticLock
              (prewrite_setup o.hasDataInRange mutations options).mutations 0 [] []) with
       | .panicked => .panicked
       | .err e => .err e
       | .ok (mods, locks) =>
         if locks.isEmpty then .ok ⟨⟨mods, mutations.length, .multiRes [], none⟩, []⟩
         else .ok ⟨⟨[], 0, .multiRes locks, none⟩, []⟩) := rfl

/-- Claim C2: prewrite accumulates every per-mutation `KeyIsLocked` and keeps
going (only other errors abort); with at least one conflict the result is
`MultiRes{results: locks}` with no emitted mutations, `rows = 0` and no
lock-wait descriptor; with none it is `MultiRes{results: []}` with the
transaction's buffered modifications and `rows = |mutations|`.  Stated for the
optimistic loop, the pessimistic loop (with a sufficiently long
`is_pessimistic_lock` array), and the abort behaviour. -/
theorem prewrite_collects_key_is_locked :
    (∀ (hash : RawKey → Nat) (o : MvccOracle) (lockMgr : Option LockMgr)
        (mutations : List Mutation) (primary : RawKey) (startTs : TS) (options : Options),
        options.forUpdateTs = 0 →
        (∀ m ∈ (prewrite_setup o.hasDataInRange mutations options).mutations,
          (o.prewriteStep m
            (prewrite_setup o.hasDataInRange mutations options).options).fatal = false) →
        process_write_impl hash o lockMgr (.prewrite mutations primary startTs options) =
          (let setup := prewrite_setup o.hasDataInRange mutations options
           let step := fun m => o.prewriteStep m setup.options
           let locks := stepLockErrs step setup.mutations
           if locks = [] then
             .ok ⟨⟨stepMods step setup.mutations, mutations.length, .multiRes [], none⟩, []⟩
           else .ok ⟨⟨[], 0, .multiRes locks, none⟩, []⟩)) ∧
    (∀ (hash : RawKey → Nat) (o : MvccOracle) (lockMgr : Option LockMgr)
        (mutations : List Mutation) (primary : RawKey) (startTs : TS) (options : Options),
        options.forUpdateTs ≠ 0 →
        mutations.length ≤ options.isPessimisticLock.length →
        (∀ p ∈ mutations.zip options.isPessimisticLock,
          (o.pessimisticPrewriteStep p.1 p.2 options).fatal = false) →
        process_write_impl hash o lockMgr (.prewrite mutations primary startTs options) =
          (let step := fun p : Mutation × Bool => o.pessimisticPrewriteStep p.1 p.2 options
           let pairs := mutations.zip options.isPessimisticLock
           let locks := stepLockErrs step pairs
           if locks = [] then
             .ok ⟨⟨stepMods step pairs, mutations.length, .multiRes [], none⟩, []⟩
           else .ok ⟨⟨[], 0, .multiRes locks, none⟩, []⟩)) ∧
    (∀ (hash : RawKey → Nat) (o : MvccOracle) (lockMgr : Option LockMgr)
        (mutations : List Mutation) (primary : RawKey) (startTs : TS) (options : Options)
        (pre : List Mutation) (m : Mutation) (rest : List Mutation) (c : Nat),
        options.forUpdateTs = 0 →
        (prewrite_setup o.hasDataInRange mutations options).mutations = pre ++ m :: rest →
        (∀ x ∈ pre, (o.prewriteStep x
          (prewrite_setup o.hasDataInRange mutations options).options).fatal = false) →
        o.prewriteStep m (prewrite_setup o.hasDataInRange mutations options).options =
          .otherErr c →
        process_write_impl hash o lockMgr (.prewrite mutations primary startTs options) =
          .err (.mvcc (.other c))) := by
  refine ⟨?_, ?_, ?_⟩
  · intro hash o lockMgr mutations primary startTs options hopt hno
    rw [process_prewrite_eq]
    rw [if_pos hopt]
    rw [prewrite_loop_no_fatal _ _ hno]
    simp only [List.nil_append]
    cases hsl : stepLockErrs
        (fun m => o.prewriteStep m (prewrite_setup o.hasDataInRange mutations options).options)
        (prewrite_setup o.hasDataInRange mutations options).mutations with
    | nil => simp [hsl]
    | cons a as => simp [hsl]
  · intro hash o lockMgr mutations primary startTs options hpes hlen hno
    have hsetup : prewrite_setup o.hasDataInRange mutations options =
        ⟨mutations, options, none⟩ :=
      prewrite_setup_id _ _ _ (Or.inl hpes)
    rw [process_prewrite_eq, hsetup]
    rw [if_neg (by simpa [hsetup] using hpes)]
    have hloop := pessimistic_prewrite_loop_no_fatal
      (fun m b => o.pessimisticPrewriteStep m b options) options.isPessimisticLock
      mutations 0 (by simpa using hlen) (by simpa using hno) [] []
    simp only [List.drop_zero] at hloop
    rw [hloop]
    simp only [List.nil_append]
    cases hsl : stepLockErrs
        (fun p : Mutation × Bool => o.pessimisticPrewriteStep p.1 p.2 options)
        (mutations.zip options.isPessimisticLock) with
    | nil => simp [hsl]
    | cons a as => simp [hsl]
  · intro hash o lockMgr mutations primary startTs options pre m rest c hopt hsplit hpre hm
    rw [process_prewrite_eq, if_pos hopt, hsplit]
    rw [prewrite_loop_fatal _ pre m rest c hpre hm]

/-- Witness for C2 at concrete inputs: an optimistic prewrite with one
conflicting mutation (conflict collected, nothing written, `rows = 0`), a
pessimistic prewrite with one conflict, and an optimistic prewrite whose
second mutation fails fatally (command aborts with the propagated error). -/
theorem prewrite_collects_key_is_locked_witness :
    process_write_impl hash0
        { oracle0 with prewriteStep := fun m _ =>
            if m.key == [1] then .keyIsLocked { key := [1], lockVersion := 9 } else .ok [4] }
        none (.prewrite [⟨[1], []⟩, ⟨[2], []⟩] [1] 5 {}) =
      .ok ⟨⟨[], 0, .multiRes [key_is_locked_err { key := [1], lockVersion := 9 }], none⟩, []⟩ ∧
    process_write_impl hash0
        { oracle0 with pessimisticPrewriteStep := fun m b _ =>
            if b then .keyIsLocked { key := m.key, lockVersion := 3 } else .ok [2] }
        none (.prewrite [⟨[1], []⟩, ⟨[2], []⟩] [1] 5
          { forUpdateTs := 7, isPessimisticLock := [false, true] }) =
      .ok ⟨⟨[], 0, .multiRes [key_is_locked_err { key := [2], lockVersion := 3 }], none⟩, []⟩ ∧
    process_write_impl hash0
        { oracle0 with prewriteStep := fun m _ =>
            if m.key == [2] then .otherErr 5 else .ok [] }
        none (.prewrite [⟨[1], []⟩, ⟨[2], []⟩, ⟨[3], []⟩] [1] 5 {}) =
      .err (.mvcc (.other 5)) := by
  refine ⟨?_, ?_, ?_⟩
  · have h := prewrite_collects_key_is_locked.1 hash0
      { oracle0 with prewriteStep := fun m _ =>
          if m.key == [1] then .keyIsLocked { key := [1], lockVersion := 9 } else .ok [4] }
      none [⟨[1], []⟩, ⟨[2], []⟩] [1] 5 {} (by decide) (by decide)
    exact h.trans (by decide)
  · have h := prewrite_collects_key_is_locked.2.1 hash0
      { oracle0 with pessimisticPrewriteStep := fun m b _ =>
          if b then .keyIsLocked { key := m.key, lockVersion := 3 } else .ok [2] }
      none [⟨[1], []⟩, ⟨[2], []⟩] [1] 5
      { forUpdateTs := 7, isPessimisticLock := [false, true] }
      (by decide) (by decide) (by decide)
    exact h.trans (by decide)
  · exact prewrite_collects_key_is_locked.2.2 hash0
      { oracle0 with prewriteStep := fun m _ =>
          if m.key == [2] then .otherErr 5 else .ok [] }
      none [⟨[1], []⟩, ⟨[2], []⟩, ⟨[3], []⟩] [1] 5 {} [⟨[1], []⟩] ⟨[2], []⟩ [⟨[3], []⟩] 5
      (by decide) (by decide) (by decide) (by decide)

/-- Claim C10: the pessimistic prewrite branch indexes
`options.is_pessimistic_lock[i]` for every mutation index `i`: when the array
is shorter than the mutation list (and no earlier call aborts the batch) the
out-of-bounds access panics instead of returning an error, and when the array
is at least as long as the mutation list the command never panics. -/
theorem pessimistic_prewrite_index_bounds :
    (∀ (hash : RawKey → Nat) (o : MvccOracle) (lockMgr : Option LockMgr)
        (mutations : List Mutation) (primary : RawKey) (startTs : TS) (options : Options),
        options.forUpdateTs ≠ 0 →
        options.isPessimisticLock.length < mutations.length →
        (∀ p ∈ mutations.zip options.isPessimisticLock,
          (o.pessimisticPrewriteStep p.1 p.2 options).fatal = false) →
        process_write_impl hash o lockMgr (.prewrite mutations primary startTs options) =
          .panicked) ∧
    (∀ (hash : RawKey → Nat) (o : MvccOracle) (lockMgr : Option LockMgr)
        (mutations : List Mutation) (primary : RawKey) (startTs : TS) (options : Options),
        options.forUpdateTs ≠ 0 →
        mutations.length ≤ options.isPessimisticLock.length →
        process_write_impl hash o lockMgr (.prewrite mutations primary startTs options) ≠
          .panicked) := by
  constructor
  · intro hash o lockMgr mutations primary startTs options hpes hlen hno
    have hsetup : prewrite_setup o.hasDataInRange mutations options =
        ⟨mutations, options, none⟩ :=
      prewrite_setup_id _ _ _ (Or.inl hpes)
    rw [process_prewrite_eq, hsetup]
    rw [if_neg (by simpa using hpes)]
    rw [pessimistic_prewrite_loop_panics
      (fun m b => o.pessimisticPrewriteStep m b options) options.isPessimisticLock
      mutations 0 (Nat.zero_le _) (by simpa using hlen) (by simpa using hno)]
  · intro hash o lockMgr mutations primary startTs options hpes hlen
    have hsetup : prewrite_setup o.hasDataInRange mutations options =
        ⟨mutations, options, none⟩ :=
      prewrite_setup_id _ _ _ (Or.inl hpes)
    rw [process_prewrite_eq, hsetup]
    rw [if_neg (by simpa using hpes)]
    intro hp
    cases hl : pessimistic_prewrite_loop
        (fun m b => o.pessimisticPrewriteStep m b options) options.isPessimisticLock
        mutations 0 [] [] with
    | ok p =>
      rw [hl] at hp
      obtain ⟨mods, locks⟩ := p
      by_cases hle : locks.isEmpty <;> simp [hle] at hp
    | err e => rw [hl] at hp; simp at hp
    | panicked =>
      exact pessimistic_prewrite_loop_no_panic _ _ mutations 0 (by simpa using hlen) [] [] hl

/-- Witness for C10: two mutations with a one-entry `is_pessimistic_lock`
array panic; with a two-entry array the command does not panic. -/
theorem pessimistic_prewrite_index_bounds_witness :
    process_write_impl hash0 oracle0 none
        (.prewrite [⟨[1], []⟩, ⟨[2], []⟩] [1] 5
          { forUpdateTs := 7, isPessimisticLock := [true] }) = .panicked ∧
    process_write_impl hash0 oracle0 none
        (.prewrite [⟨[1], []⟩, ⟨[2], []⟩] [1] 5
          { forUpdateTs := 7, isPessimisticLock := [true, false] }) ≠ .panicked :=
  ⟨pessimistic_prewrite_index_bounds.1 hash0 oracle0 none [⟨[1], []⟩, ⟨[2], []⟩] [1] 5
      { forUpdateTs := 7, isPessimisticLock := [true] } (by decide) (by decide) (by decide),
   pessimistic_prewrite_index_bounds.2 hash0 oracle0 none [⟨[1], []⟩, ⟨[2], []⟩] [1] 5
      { forUpdateTs := 7, isPessimisticLock := [true, false] } (by decide) (by decide)⟩

/-- Closed form of the pessimistic-lock key loop when every call succeeds. -/
theorem acquire_loop_all_ok (step : RawKey → Bool → PrewriteStep) :
    ∀ (keys : List (RawKey × Bool)),
      (∀ p ∈ keys, (step p.1 p.2).isOk = true) →
      ∀ mods,
        acquire_pessimistic_lock_loop step keys mods =
          .ok (mods ++ stepMods (fun p : RawKey × Bool => step p.1 p.2) keys, []) := by
  intro keys
  induction keys with
  | nil => intro _ mods; simp [acquire_pessimistic_lock_loop, stepMods]
  | cons p rest ih =>
    intro h mods
    obtain ⟨k, sne⟩ := p
    have hrest := ih (fun x hx => h x (by simp [hx]))
    match hk : step k sne with
    | .ok l =>
      simp [acquire_pessimistic_lock_loop, hk, hrest, stepMods, List.append_assoc]
    | .keyIsLocked info =>
      have := h (k, sne) (by simp)
      simp [PrewriteStep.isOk, hk] at this
    | .otherErr c =>
      have := h (k, sne) (by simp)
      simp [PrewriteStep.isOk, hk] at this

/-- The pessimistic-lock key loop breaks at the first `KeyIsLocked`: the
conflict is recorded alone and the remaining keys are not visited. -/
theorem acquire_loop_breaks (step : RawKey × Bool → PrewriteStep) :
    ∀ (pre : List (RawKey × Bool)) (k : RawKey) (sne : Bool)
      (rest : List (RawKey × Bool)) (info : LockInfo),
      (∀ p ∈ pre, (step p).isOk = true) →
      step (k, sne) = .keyIsLocked info →
      ∀ mods,
        acquire_pessimistic_lock_loop (fun a b => step (a, b)) (pre ++ (k, sne) :: rest) mods =
          .ok (mods ++ stepMods step pre, [key_is_locked_err info]) := by
  intro pre
  induction pre with
  | nil =>
    intro k sne rest info _ hk mods
    simp [acquire_pessimistic_lock_loop, hk, stepMods]
  | cons p xs ih =>
    intro k sne rest info hpre hk mods
    obtain ⟨k0, sne0⟩ := p
    have hxs := ih k sne rest info (fun x hx => hpre x (by simp [hx])) hk
    match hp : step (k0, sne0) with
    | .ok l =>
      simp [acquire_pessimistic_lock_loop, hp, hxs, stepMods, List.append_assoc]
    | .keyIsLocked info2 =>
      have := hpre (k0, sne0) (by simp)
      simp [PrewriteStep.isOk, hp] at this
    | .otherErr c =>
      have := hpre (k0, sne0) (by simp)
      simp [PrewriteStep.isOk, hp] at this

/-- Claim C3: `AcquirePessimisticLock` stops at the first `KeyIsLocked`
(unlike prewrite): on a conflict the result carries
`lock_info = (lock extracted from that first conflict, options.is_first_lock,
options.wait_timeout)` with empty `to_be_write` and `rows = 0` — independent
of the keys after the conflict; with no conflict the buffered lock mutations
are returned with `rows = |keys|` and no `lock_info`. -/
theorem acquire_pessimistic_lock_first_conflict :
    (∀ (hash : RawKey → Nat) (o : MvccOracle) (lockMgr : Option LockMgr)
        (pre : List (RawKey × Bool)) (k : RawKey) (sne : Bool)
        (rest : List (RawKey × Bool)) (primary : RawKey) (startTs : TS)
        (options : Options) (info : LockInfo),
        (∀ p ∈ pre, (o.acquireStep p.1 p.2 options).isOk = true) →
        o.acquireStep k sne options = .keyIsLocked info →
        process_write_impl hash o lockMgr
            (.acquirePessimisticLock (pre ++ (k, sne) :: rest) primary startTs options) =
          .ok ⟨⟨[], 0, .multiRes [key_is_locked_err info],
            some (⟨info.lockVersion, hash info.key⟩, options.isFirstLock,
              options.waitTimeout)⟩, []⟩) ∧
    (∀ (hash : RawKey → Nat) (o : MvccOracle) (lockMgr : Option LockMgr)
        (keys : List (RawKey × Bool)) (primary : RawKey) (startTs : TS)
        (options : Options),
        (∀ p ∈ keys, (o.acquireStep p.1 p.2 options).isOk = true) →
        process_write_impl hash o lockMgr
            (.acquirePessimisticLock keys primary startTs options) =
          .ok ⟨⟨stepMods (fun p : RawKey × Bool => o.acquireStep p.1 p.2 options) keys,
            keys.length, .multiRes [], none⟩, []⟩) := by
  constructor
  · intro hash o lockMgr pre k sne rest primary startTs options info hpre hk
    have hloop := acquire_loop_breaks (fun p => o.acquireStep p.1 p.2 options) pre k sne rest
      info hpre hk []
    simp only [process_write_impl]
    rw [hloop]
    simp [extract_lock_from_result, key_is_locked_err]
  · intro hash o lockMgr keys primary startTs options hok
    have hloop := acquire_loop_all_ok (fun a b => o.acquireStep a b options) keys hok []
    simp only [process_write_impl]
    rw [hloop]
    cases hsm : stepMods (fun p : RawKey × Bool => o.acquireStep p.1 p.2 options) keys with
    | nil => simp [hsm]
    | cons a as => simp [hsm]

/-- Witness for C3: the second key conflicts, so the loop records exactly that
conflict and ignores the third key; and a conflict-free run returns the
buffered mutations. -/
theorem acquire_pessimistic_lock_first_conflict_witness :
    process_write_impl hash0
        { oracle0 with acquireStep := fun k _ _ =>
            if k == [2] then .keyIsLocked { key := [2], lockVersion := 8 } else .ok [3] }
        none (.acquirePessimisticLock [([1], false), ([2], true), ([3], false)] [1] 5
          { isFirstLock := true, waitTimeout := 40 }) =
      .ok ⟨⟨[], 0, .multiRes [key_is_locked_err { key := [2], lockVersion := 8 }],
        some (⟨8, hash0 [2]⟩, true, 40)⟩, []⟩ ∧
    process_write_impl hash0
        { oracle0 with acquireStep := fun _ _ _ => .ok [3] }
        none (.acquirePessimisticLock [([1], false), ([2], true)] [1] 5 {}) =
      .ok ⟨⟨[3, 3], 2, .multiRes [], none⟩, []⟩ := by
  constructor
  · exact (acquire_pessimistic_lock_first_conflict.1 hash0
      { oracle0 with acquireStep := fun k _ _ =>
          if k == [2] then .keyIsLocked { key := [2], lockVersion := 8 } else .ok [3] }
      none [([1], false)] [2] true [([3], false)] [1] 5
      { isFirstLock := true, waitTimeout := 40 } { key := [2], lockVersion := 8 }
      (by decide) (by decide)).trans (by decide)
  · exact (acquire_pessimistic_lock_first_conflict.2 hash0
      { oracle0 with acquireStep := fun _ _ _ => .ok [3] }
      none [([1], false), ([2], true)] [1] 5 {} (by decide)).trans (by decide)

/-- Closed form of the commit key loop on `ks ++ [klast]` when every call
succeeds: the flag returned is the last key's return value, regardless of the
initial flag and of every earlier key's return value. -/
theorem commit_loop_last_flag (step : RawKey → TxnCallRes) :
    ∀ (ks : List RawKey) (klast : RawKey) (bl : Bool) (msl : List Modify),
      (∀ k ∈ ks, (step k).isOk = true) →
      step klast = .ok bl msl →
      ∀ (b0 : Bool) (mods : List Modify),
        commit_loop step (ks ++ [klast]) b0 mods =
          .ok (bl, mods ++ commitMods step (ks ++ [klast])) := by
  intro ks
  induction ks with
  | nil =>
    intro klast bl msl _ hlast b0 mods
    simp [commit_loop, hlast, commitMods]
  | cons k rest ih =>
    intro klast bl msl hall hlast b0 mods
    have hrest := ih klast bl msl (fun x hx => hall x (by simp [hx])) hlast
    match hk : step k with
    | .ok b ms =>
      have hstep : commit_loop step ((k :: rest) ++ [klast]) b0 mods =
          commit_loop step (rest ++ [klast]) b (mods ++ ms) := by
        simp [commit_loop, hk]
      rw [hstep, hrest]
      simp [commitMods, hk, List.append_assoc]
    | .err e =>
      have := hall k (by simp)
      simp [TxnCallRes.isOk, hk] at this

/-- Claim C9: for a multi-key `Commit`, the `is_pessimistic_txn` flag passed
to the waiter wake-up is the return value of the last key's `commit` only;
earlier keys' return values are overwritten and do not influence the call. -/
theorem commit_wake_up_uses_last_key_flag :
    ∀ (hash : RawKey → Nat) (o : MvccOracle) (lockMgr : Option LockMgr)
      (ks : List RawKey) (klast : RawKey) (lockTs commitTs : TS) (bl : Bool)
      (msl : List Modify),
      lockTs < commitTs →
      (∀ k ∈ ks, (o.commitStep lockTs k commitTs).isOk = true) →
      o.commitStep lockTs klast commitTs = .ok bl msl →
      process_write_impl hash o lockMgr (.commit (ks ++ [klast]) lockTs commitTs) =
        .ok ⟨⟨commitMods (fun k => o.commitStep lockTs k commitTs) (ks ++ [klast]),
          ks.length + 1, .txnStatusRes (.committed commitTs), none⟩,
          wake_up_waiters_if_needed lockMgr lockTs
            (gen_key_hashes_if_needed hash lockMgr (ks ++ [klast])) commitTs bl⟩ := by
  intro hash o lockMgr ks klast lockTs commitTs bl msl hlt hall hlast
  have hnot : ¬ commitTs ≤ lockTs := not_le.mpr hlt
  have hloop := commit_loop_last_flag (fun k => o.commitStep lockTs k commitTs) ks klast bl msl
    hall hlast false []
  simp only [process_write_impl, if_neg hnot]
  rw [hloop]
  simp

/-- Witness for C9: the first key's `commit` returns `true`, the last key's
returns `false`; the wake-up call carries `false`. -/
theorem commit_wake_up_uses_last_key_flag_witness :
    process_write_impl hash0
        { oracle0 with commitStep := fun _ k _ => .ok (k != [2]) [] } (some ⟨true⟩)
        (.commit [[1], [2]] 1 2) =
      .ok ⟨⟨[], 2, .txnStatusRes (.committed 2), none⟩,
        [⟨1, some [2, 3], 2, false⟩]⟩ := by
  have h := commit_wake_up_uses_last_key_flag hash0
    { oracle0 with commitStep := fun _ k _ => .ok (k != [2]) [] } (some ⟨true⟩)
    [[1]] [2] 1 2 false [] (by decide) (by decide) (by decide)
  exact h.trans (by decide)

/-- Unfolding of the `ResolveLock` arm of `process_write_impl`. -/
theorem process_resolve_lock_eq (hash : RawKey → Nat) (o : MvccOracle)
    (lockMgr : Option LockMgr) (txnStatus : List (TS × TS))
    (scanKey : Option RawKey) (keyLocks : List (RawKey × LockRec)) :
    process_write_impl hash o lockMgr (.resolveLock txnStatus scanKey keyLocks) =
      (match resolve_loop hash
          (match lockMgr with
           | some lm => lm.hasWaiter
           | none => false)
          o.commitStep o.rollbackStep txnStatus keyLocks
          (match lockMgr with
           | some _ => some []
           | none => none) [] 0 scanKey with
       | .panicked => .panicked
       | .err e => .err e
       | .ok (t, mods, scanKeyOut) =>
         .ok ⟨⟨mods, keyLocks.length,
           (match scanKeyOut with
            | none => ProcessResult.res
            | some k => ProcessResult.nextCommand (.resolveLock txnStatus (some k) [])), none⟩,
           resolve_wake_ups lockMgr t⟩) := rfl

/-- Claim C4 (amended): the `ResolveLock` write-phase loop stops — recording
`scan_key = current_key` — at the first entry at which the accumulated write
size reaches `MAX_TXN_WRITE_SIZE`; consequently the write size accumulated
strictly before the final processed entry is below `MAX_TXN_WRITE_SIZE` (the
total emitted may exceed it by at most the final entry's write size); the
result is `Res` when `scan_key` ends up `None` and otherwise
`NextCommand{ResolveLock{txn_status, scan_key, key_locks=[]}}` with the
remembered `scan_key`. -/
theorem resolve_lock_bounded_batches :
    (∀ (hash : RawKey → Nat) (hasWaiter : Bool)
        (commitStep : TS → RawKey → TS → TxnCallRes)
        (rollbackStep : TS → RawKey → TxnCallRes) (txnStatus : List (TS × TS))
        (currentKey : RawKey) (currentLock : LockRec)
        (rest : List (RawKey × LockRec)) (t : Option TxnToKeys)
        (mods : List Modify) (writeSize : Nat) (scanKey : Option RawKey)
        (status : TS) (ms : List Modify),
        txnStatus.lookup currentLock.ts = some status →
        resolve_key_call commitStep rollbackStep currentKey currentLock status = .ok ms →
        MAX_TXN_WRITE_SIZE ≤ writeSize + listWriteSize ms →
        resolve_loop hash hasWaiter commitStep rollbackStep txnStatus
            ((currentKey, currentLock) :: rest) t mods writeSize scanKey =
          .ok (t.map (fun m => txn_to_keys_update hasWaiter m
              (currentLock.ts, currentLock.forUpdateTs != 0) (hash currentKey)),
            mods ++ ms, some currentKey)) ∧
    (∀ (hash : RawKey → Nat) (hasWaiter : Bool)
        (commitStep : TS → RawKey → TS → TxnCallRes)
        (rollbackStep : TS → RawKey → TxnCallRes) (txnStatus : List (TS × TS))
        (ks : List (RawKey × LockRec)) (t : Option TxnToKeys) (mods : List Modify)
        (scanKey : Option RawKey) (t2 : Option TxnToKeys) (mods2 : List Modify)
        (scanKey2 : Option RawKey),
        listWriteSize mods < MAX_TXN_WRITE_SIZE →
        resolve_loop hash hasWaiter commitStep rollbackStep txnStatus ks t mods
            (listWriteSize mods) scanKey = .ok (t2, mods2, scanKey2) →
        ∃ pre ms, mods2 = pre ++ ms ∧ listWriteSize pre < MAX_TXN_WRITE_SIZE) ∧
    (∀ (hash : RawKey → Nat) (o : MvccOracle) (lockMgr : Option LockMgr)
        (txnStatus : List (TS × TS)) (scanKey : Option RawKey)
        (keyLocks : List (RawKey × LockRec)) (t : Option TxnToKeys)
        (mods : List Modify) (scanKeyOut : Option RawKey),
        resolve_loop hash
            (match lockMgr with
             | some lm => lm.hasWaiter
             | none => false)
            o.commitStep o.rollbackStep txnStatus keyLocks
            (match lockMgr with
             | some _ => some []
             | none => none) [] 0 scanKey = .ok (t, mods, scanKeyOut) →
        process_write_impl hash o lockMgr (.resolveLock txnStatus scanKey keyLocks) =
          .ok ⟨⟨mods, keyLocks.length,
            (match scanKeyOut with
             | none => ProcessResult.res
             | some k => ProcessResult.nextCommand (.resolveLock txnStatus (some k) [])), none⟩,
            resolve_wake_ups lockMgr t⟩) := by
  refine ⟨?_, ?_, ?_⟩
  · intro hash hw cs rs txnStatus ck cl rest t mods ws sk s ms hlook hcall hge
    simp [resolve_loop, hlook, hcall, hge]
  · intro hash hw cs rs txnStatus ks
    induction ks with
    | nil =>
      intro t mods sk t2 mods2 sk2 hlt heq
      simp only [resolve_loop, PRes.ok.injEq, Prod.mk.injEq] at heq
      exact ⟨mods2, [], by simp, by rw [← heq.2.1]; exact hlt⟩
    | cons kl rest ih =>
      intro t mods sk t2 mods2 sk2 hlt heq
      obtain ⟨ck, cl⟩ := kl
      simp only [resolve_loop] at heq
      cases hlook : txnStatus.lookup cl.ts with
      | none => simp only [hlook] at heq; exact PRes.noConfusion heq
      | some cts =>
        simp only [hlook] at heq
        cases hcall : resolve_key_call cs rs ck cl cts with
        | panicked => simp only [hcall] at heq; exact PRes.noConfusion heq
        | err e => simp only [hcall] at heq; exact PRes.noConfusion heq
        | ok ms =>
          simp only [hcall] at heq
          by_cases hws : listWriteSize mods + listWriteSize ms ≥ MAX_TXN_WRITE_SIZE
          · rw [if_pos hws] at heq
            simp only [PRes.ok.injEq, Prod.mk.injEq] at heq
            exact ⟨mods, ms, heq.2.1.symm, hlt⟩
          · rw [if_neg hws] at heq
            have hsz : listWriteSize mods + listWriteSize ms =
                listWriteSize (mods ++ ms) := by
              simp [listWriteSize, List.sum_append]
            rw [hsz] at heq
            exact ih _ (mods ++ ms) sk t2 mods2 sk2 (by rw [← hsz]; omega) heq
  · intro hash o lockMgr txnStatus scanKey keyLocks t mods scanKeyOut heq
    rw [process_resolve_lock_eq, heq]

/-- Counterexample to C4 as stated: one lock whose resolution buffers
`MAX_TXN_WRITE_SIZE + 1` bytes makes a single invocation emit more than
`MAX_TXN_WRITE_SIZE` of modifications while still yielding a continuation. -/
theorem resolve_lock_exceeds_max_write_size :
    process_write_impl hash0
        { oracle0 with rollbackStep := fun _ _ => .ok false [MAX_TXN_WRITE_SIZE + 1] } none
        (.resolveLock [(1, 0)] none [([1], ⟨1, 0⟩)]) =
      .ok ⟨⟨[MAX_TXN_WRITE_SIZE + 1], 1,
        .nextCommand (.resolveLock [(1, 0)] (some [1]) []), none⟩, []⟩ ∧
    MAX_TXN_WRITE_SIZE < listWriteSize [MAX_TXN_WRITE_SIZE + 1] := by
  exact ⟨by decide, by decide⟩

/-- Witness for C4 (amended) at concrete inputs: the oversized first entry
breaks the loop with `scan_key = current_key`; a completed small run admits
the bound decomposition; and the assembled result is `Res` for a finished
scan. -/
theorem resolve_lock_bounded_batches_witness :
    resolve_loop hash0 false
        (fun _ _ _ => TxnCallRes.ok false [])
        (fun _ _ => TxnCallRes.ok false [MAX_TXN_WRITE_SIZE + 1]) [(1, 0)]
        [([1], ⟨1, 0⟩), ([2], ⟨1, 0⟩)] none [] 0 none =
      .ok (none, [MAX_TXN_WRITE_SIZE + 1], some [1]) ∧
    (∃ pre ms, ([] : List Modify) = pre ++ ms ∧
      listWriteSize pre < MAX_TXN_WRITE_SIZE) ∧
    process_write_impl hash0 oracle0 none (.resolveLock [(1, 0)] none [([1], ⟨1, 0⟩)]) =
      .ok ⟨⟨[], 1, .res, none⟩, []⟩ := by
  refine ⟨?_, ?_, ?_⟩
  · exact (resolve_lock_bounded_batches.1 hash0 false
      (fun _ _ _ => TxnCallRes.ok false [])
      (fun _ _ => TxnCallRes.ok false [MAX_TXN_WRITE_SIZE + 1]) [(1, 0)]
      [1] ⟨1, 0⟩ [([2], ⟨1, 0⟩)] none [] 0 none 0 [MAX_TXN_WRITE_SIZE + 1]
      (by decide) (by decide) (by decide)).trans (by decide)
  · exact resolve_lock_bounded_batches.2.1 hash0 false oracle0.commitStep
      oracle0.rollbackStep [(1, 0)] [([1], ⟨1, 0⟩)] none [] none none [] none
      (by decide) (by decide)
  · exact (resolve_lock_bounded_batches.2.2 hash0 oracle0 none [(1, 0)] none
      [([1], ⟨1, 0⟩)] none [] none (by decide)).trans (by decide)

/-- The scanned batch never exceeds the scan limit. -/
theorem scan_locks_go_length (filter : LockRec → Bool) (limit : Nat) :
    ∀ (xs acc : List (RawKey × LockRec)) (cnt : Nat),
      cnt = acc.length → cnt < limit →
      (scan_locks_go filter limit xs acc cnt).1.length ≤ limit := by
  intro xs
  induction xs with
  | nil =>
    intro acc cnt hc hl
    simp only [scan_locks_go, List.length_reverse]
    omega
  | cons kl rest ih =>
    intro acc cnt hc hl
    by_cases hf : filter kl.2 = true
    · by_cases hstop : 0 < limit ∧ cnt + 1 = limit
      · simp only [scan_locks_go, hf, if_pos hstop, if_true, List.length_reverse,
          List.length_cons]
        omega
      · simp only [scan_locks_go, hf, if_neg hstop, if_true]
        exact ih (kl :: acc) (cnt + 1) (by simp [hc]) (by omega)
    · simp only [scan_locks_go, hf, if_false, Bool.false_eq_true]
      exact ih acc cnt hc hl

/-- Every scanned lock passes the filter. -/
theorem scan_locks_go_filter_true (filter : LockRec → Bool) (limit : Nat) :
    ∀ (xs acc : List (RawKey × LockRec)) (cnt : Nat),
      (∀ x ∈ acc, filter x.2 = true) →
      ∀ y ∈ (scan_locks_go filter limit xs acc cnt).1, filter y.2 = true := by
  intro xs
  induction xs with
  | nil =>
    intro acc cnt hacc y hy
    simp only [scan_locks_go, List.mem_reverse] at hy
    exact hacc y hy
  | cons kl rest ih =>
    intro acc cnt hacc y hy
    by_cases hf : filter kl.2 = true
    · have hacc2 : ∀ x ∈ kl :: acc, filter x.2 = true := by
        intro x hx
        rcases List.mem_cons.mp hx with h | h
        · rw [h]; exact hf
        · exact hacc x h
      by_cases hstop : 0 < limit ∧ cnt + 1 = limit
      · simp only [scan_locks_go, hf, if_pos hstop, if_true, List.mem_reverse] at hy
        exact hacc2 y hy
      · simp only [scan_locks_go, hf, if_neg hstop, if_true] at hy
        exact ih (kl :: acc) (cnt + 1) hacc2 y hy
    · simp only [scan_locks_go, hf, if_false, Bool.false_eq_true] at hy
      exact ih acc cnt hacc y hy

/-- Claim C5: the `ResolveLock` read phase scans at most
`RESOLVE_LOCK_BATCH_SIZE = 256` locks from `scan_key`, keeping exactly those
whose `ts` is a key of `txn_status`; an empty batch yields `Res`; a non-empty
truncated batch yields `NextCommand` whose `scan_key` is the last returned key
and whose `key_locks` is the batch; a non-empty non-truncated batch yields
`NextCommand` with `scan_key = None`. -/
theorem resolve_lock_read_phase :
    RESOLVE_LOCK_BATCH_SIZE = 256 ∧
    ∀ (lockCF : List (RawKey × LockRec)) (txnStatus : List (TS × TS))
      (scanKey : Option RawKey),
      (let scanned := scan_locks lockCF scanKey
        (fun lock => (txnStatus.lookup lock.ts).isSome) RESOLVE_LOCK_BATCH_SIZE
       scanned.1.length ≤ RESOLVE_LOCK_BATCH_SIZE ∧
       (∀ kl ∈ scanned.1, (txnStatus.lookup kl.2.ts).isSome = true) ∧
       (scanned.1 = [] → process_read_resolve_lock lockCF txnStatus scanKey = .res) ∧
       (scanned.1 ≠ [] → scanned.2 = true →
         process_read_resolve_lock lockCF txnStatus scanKey =
           .nextCommand (.resolveLock txnStatus (scanned.1.getLast?.map Prod.fst)
             scanned.1)) ∧
       (scanned.1 ≠ [] → scanned.2 = false →
         process_read_resolve_lock lockCF txnStatus scanKey =
           .nextCommand (.resolveLock txnStatus none scanned.1))) := by
  refine ⟨rfl, ?_⟩
  intro lockCF txnStatus scanKey
  refine ⟨?_, ?_, ?_, ?_, ?_⟩
  · exact scan_locks_go_length _ _ _ [] 0 rfl (by decide)
  · exact scan_locks_go_filter_true _ _ _ [] 0 (by simp)
  · intro h3
    simp only [process_read_resolve_lock]
    rw [h3]
    rfl
  · intro hne htr
    simp only [process_read_resolve_lock]
    rw [htr, if_neg (by simpa using hne)]
    simp
  · intro hne htr
    simp only [process_read_resolve_lock]
    rw [htr, if_neg (by simpa using hne)]
    simp

/-- Witness for C5 at a concrete lock column family: a matching lock is
scanned without truncation, yielding `NextCommand` with `scan_key = None`,
and an empty scan yields `Res`. -/
theorem resolve_lock_read_phase_witness :
    process_read_resolve_lock [([1], ⟨5, 0⟩)] [(5, 0)] none =
      .nextCommand (.resolveLock [(5, 0)] none [([1], ⟨5, 0⟩)]) ∧
    process_read_resolve_lock [] [(5, 0)] none = .res := by
  constructor
  · have h := (resolve_lock_read_phase.2 [([1], ⟨5, 0⟩)] [(5, 0)] none).2.2.2.2
      (by decide) (by decide)
    exact h.trans (by decide)
  · exact (resolve_lock_read_phase.2 [] [(5, 0)] none).2.2.1 (by decide)

/-- `keyLe` is total. -/
theorem keyLe_total : ∀ a b : RawKey, keyLe a b = true ∨ keyLe b a = true := by
  intro a
  induction a with
  | nil => intro b; left; rfl
  | cons x xs ih =>
    intro b
    cases b with
    | nil => right; rfl
    | cons y ys =>
      rcases Nat.lt_trichotomy x y with h | h | h
      · left; simp [keyLe, h]
      · subst h
        rcases ih ys with h2 | h2
        · left; simp [keyLe, h2]
        · right; simp [keyLe, h2]
      · right; simp [keyLe, h]

/-- `keyLe` is transitive. -/
theorem keyLe_trans : ∀ a b c : RawKey,
    keyLe a b = true → keyLe b c = true → keyLe a c = true := by
  intro a
  induction a with
  | nil => intro b c _ _; rfl
  | cons x xs ih =>
    intro b c hab hbc
    cases b with
    | nil => simp [keyLe] at hab
    | cons y ys =>
      cases c with
      | nil => simp [keyLe] at hbc
      | cons z zs =>
        simp only [keyLe] at hab hbc ⊢
        by_cases h1 : x < y
        · by_cases h2 : y < z
          · rw [if_pos (by omega)]
          · by_cases h3 : z < y
            · rw [if_neg h2, if_pos h3] at hbc; exact absurd hbc (by simp)
            · rw [if_pos (by omega)]
        · by_cases h1b : y < x
          · rw [if_neg h1, if_pos h1b] at hab; exact absurd hab (by simp)
          · have hxy : x = y := by omega
            subst hxy
            rw [if_neg h1, if_neg h1b] at hab
            by_cases h2 : x < z
            · rw [if_pos h2]
            · by_cases h3 : z < x
              · rw [if_neg h2, if_pos h3] at hbc; exact absurd hbc (by simp)
              · rw [if_neg h2, if_neg h3] at hbc ⊢
                exact ih ys zs hab hbc

instance : IsTotal Mutation mutLe := ⟨fun a b => keyLe_total a.key b.key⟩

instance : IsTrans Mutation mutLe := ⟨fun _ _ _ => keyLe_trans _ _ _⟩

/-- A sorted permutation of a non-empty list is non-empty. -/
theorem insertionSort_mutLe_ne_nil (mutations : List Mutation)
    (h : 0 < mutations.length) : List.insertionSort mutLe mutations ≠ [] := by
  intro hnil
  have hperm := List.perm_insertionSort mutLe mutations
  rw [hnil] at hperm
  have := hperm.length_eq
  simp at this
  omega

/-- Unfolding of the fast-path heuristic when it fires. -/
theorem prewrite_setup_fast (hasDataInRange : RawKey → RawKey → Bool)
    (mutations : List Mutation) (options : Options)
    (h1 : options.forUpdateTs = 0)
    (h2 : mutations.length > FORWARD_MIN_MUTATIONS_NUM)
    (m0 : Mutation) (rest : List Mutation)
    (hms : List.insertionSort mutLe mutations = m0 :: rest) :
    prewrite_setup hasDataInRange mutations options =
      (if hasDataInRange m0.key (appendTs (List.getLastD rest m0).key 0) then
        ⟨m0 :: rest, options, none⟩
      else ⟨m0 :: rest, { options with skipConstraintCheck := true },
        some ScanMode.forward⟩) := by
  unfold prewrite_setup
  rw [if_pos ⟨h1, h2⟩, hms]

/-- Claim C6: the fast path fires only for an optimistic prewrite with more
than `FORWARD_MIN_MUTATIONS_NUM = 12` mutations: the mutations are sorted
ascending by key, and when the write column family has no data in
`[first key, last key with timestamp 0 appended)` the heuristic sets
`skip_constraint_check = true` and requests forward scan mode; in all other
cases (pessimistic prewrite, `<= 12` mutations, or non-empty range) neither
the skip nor the scan mode is applied. -/
theorem prewrite_fast_path :
    FORWARD_MIN_MUTATIONS_NUM = 12 ∧
    (∀ (hasDataInRange : RawKey → RawKey → Bool) (mutations : List Mutation)
        (options : Options),
        options.forUpdateTs = 0 → mutations.length > FORWARD_MIN_MUTATIONS_NUM →
        (let setup := prewrite_setup hasDataInRange mutations options
         setup.mutations = List.insertionSort mutLe mutations ∧
         List.Sorted mutLe setup.mutations ∧
         setup.mutations.Perm mutations ∧
         (∀ (m0 : Mutation) (rest : List Mutation),
           List.insertionSort mutLe mutations = m0 :: rest →
           ((hasDataInRange m0.key (appendTs (List.getLastD rest m0).key 0) = false →
              setup.options = { options with skipConstraintCheck := true } ∧
              setup.scanMode = some ScanMode.forward) ∧
            (hasDataInRange m0.key (appendTs (List.getLastD rest m0).key 0) = true →
              setup.options = options ∧ setup.scanMode = none))))) ∧
    (∀ (hasDataInRange : RawKey → RawKey → Bool) (mutations : List Mutation)
        (options : Options),
        options.forUpdateTs ≠ 0 ∨ ¬ mutations.length > FORWARD_MIN_MUTATIONS_NUM →
        prewrite_setup hasDataInRange mutations options = ⟨mutations, options, none⟩) := by
  refine ⟨rfl, ?_, ?_⟩
  · intro hasDataInRange mutations options h1 h2
    cases hms : List.insertionSort mutLe mutations with
    | nil => exact absurd hms (insertionSort_mutLe_ne_nil mutations (by omega))
    | cons m0 rest =>
      have hset := prewrite_setup_fast hasDataInRange mutations options h1 h2 m0 rest hms
      have hsorted := List.sorted_insertionSort mutLe mutations
      rw [hms] at hsorted
      have hperm := List.perm_insertionSort mutLe mutations
      rw [hms] at hperm
      by_cases hd : hasDataInRange m0.key (appendTs (List.getLastD rest m0).key 0) = true
      · rw [if_pos hd] at hset
        refine ⟨by rw [hset], by rw [hset]; exact hsorted,
          by rw [hset]; exact hperm, ?_⟩
        intro m0b restb hmsb
        injection hmsb with he1 he2
        subst he1; subst he2
        constructor
        · intro hdf
          rw [hdf] at hd
          exact absurd hd (by simp)
        · intro _
          exact ⟨by rw [hset], by rw [hset]⟩
      · rw [if_neg hd] at hset
        refine ⟨by rw [hset], by rw [hset]; exact hsorted,
          by rw [hset]; exact hperm, ?_⟩
        intro m0b restb hmsb
        injection hmsb with he1 he2
        subst he1; subst he2
        constructor
        · intro _
          exact ⟨by rw [hset], by rw [hset]⟩
        · intro hdt
          exact absurd hdt hd
  · intro hasDataInRange mutations options h
    exact prewrite_setup_id hasDataInRange mutations options h

/-- Witness for C6: 13 mutations with descending keys are sorted ascending,
and with an empty write range the heuristic sets `skip_constraint_check` and
forward scan mode; a pessimistic prewrite is left untouched. -/
theorem prewrite_fast_path_witness :
    (prewrite_setup (fun _ _ => false)
        [⟨[12], []⟩, ⟨[11], []⟩, ⟨[10], []⟩, ⟨[9], []⟩, ⟨[8], []⟩, ⟨[7], []⟩, ⟨[6], []⟩,
          ⟨[5], []⟩, ⟨[4], []⟩, ⟨[3], []⟩, ⟨[2], []⟩, ⟨[1], []⟩, ⟨[0], []⟩] {}).mutations =
      [⟨[0], []⟩, ⟨[1], []⟩, ⟨[2], []⟩, ⟨[3], []⟩, ⟨[4], []⟩, ⟨[5], []⟩, ⟨[6], []⟩,
        ⟨[7], []⟩, ⟨[8], []⟩, ⟨[9], []⟩, ⟨[10], []⟩, ⟨[11], []⟩, ⟨[12], []⟩] ∧
    (prewrite_setup (fun _ _ => false)
        [⟨[12], []⟩, ⟨[11], []⟩, ⟨[10], []⟩, ⟨[9], []⟩, ⟨[8], []⟩, ⟨[7], []⟩, ⟨[6], []⟩,
          ⟨[5], []⟩, ⟨[4], []⟩, ⟨[3], []⟩, ⟨[2], []⟩, ⟨[1], []⟩, ⟨[0], []⟩] {}).options =
      { skipConstraintCheck := true } ∧
    (prewrite_setup (fun _ _ => false)
        [⟨[12], []⟩, ⟨[11], []⟩, ⟨[10], []⟩, ⟨[9], []⟩, ⟨[8], []⟩, ⟨[7], []⟩, ⟨[6], []⟩,
          ⟨[5], []⟩, ⟨[4], []⟩, ⟨[3], []⟩, ⟨[2], []⟩, ⟨[1], []⟩, ⟨[0], []⟩] {}).scanMode =
      some ScanMode.forward ∧
    prewrite_setup (fun _ _ => false) [⟨[1], []⟩] { forUpdateTs := 3 } =
      ⟨[⟨[1], []⟩], { forUpdateTs := 3 }, none⟩ := by
  have h := prewrite_fast_path.2.1 (fun _ _ => false)
    [⟨[12], []⟩, ⟨[11], []⟩, ⟨[10], []⟩, ⟨[9], []⟩, ⟨[8], []⟩, ⟨[7], []⟩, ⟨[6], []⟩,
      ⟨[5], []⟩, ⟨[4], []⟩, ⟨[3], []⟩, ⟨[2], []⟩, ⟨[1], []⟩, ⟨[0], []⟩] {}
    (by decide) (by decide)
  have hskip := (h.2.2.2 ⟨[0], []⟩
    [⟨[1], []⟩, ⟨[2], []⟩, ⟨[3], []⟩, ⟨[4], []⟩, ⟨[5], []⟩, ⟨[6], []⟩, ⟨[7], []⟩,
      ⟨[8], []⟩, ⟨[9], []⟩, ⟨[10], []⟩, ⟨[11], []⟩, ⟨[12], []⟩] (by decide)).1 (by decide)
  exact ⟨h.1.trans (by decide), hskip.1, hskip.2,
    prewrite_fast_path.2.2 (fun _ _ => false) [⟨[1], []⟩] { forUpdateTs := 3 }
      (Or.inl (by decide))⟩

/-- A bucket-map update never produces an empty map. -/
theorem txn_to_keys_update_ne_nil (hasWaiter : Bool) (m : TxnToKeys) (k : TS × Bool)
    (keyHash : Nat) : txn_to_keys_update hasWaiter m k keyHash ≠ [] := by
  unfold txn_to_keys_update
  by_cases hmem : m.any (fun e => e.1 == k) = true
  · rw [if_pos hmem]
    obtain ⟨x, hx, _⟩ := List.any_eq_true.mp hmem
    intro hmap
    rw [List.map_eq_nil_iff] at hmap
    rw [hmap] at hx
    exact absurd hx (List.not_mem_nil x)
  · rw [if_neg hmem]
    simp

/-- With no lock manager, the `ResolveLock` loop keeps no bucket map. -/
theorem resolve_loop_none_t (hash : RawKey → Nat) (hasWaiter : Bool)
    (commitStep : TS → RawKey → TS → TxnCallRes) (rollbackStep : TS → RawKey → TxnCallRes)
    (txnStatus : List (TS × TS)) :
    ∀ (ks : List (RawKey × LockRec)) (mods : List Modify) (ws : Nat)
      (sk : Option RawKey) (t2 : Option TxnToKeys) (mods2 : List Modify)
      (sk2 : Option RawKey),
      resolve_loop hash hasWaiter commitStep rollbackStep txnStatus ks none mods ws sk =
        .ok (t2, mods2, sk2) →
      t2 = none := by
  intro ks
  induction ks with
  | nil =>
    intro mods ws sk t2 mods2 sk2 heq
    simp only [resolve_loop, PRes.ok.injEq, Prod.mk.injEq] at heq
    exact heq.1.symm
  | cons kl rest ih =>
    intro mods ws sk t2 mods2 sk2 heq
    obtain ⟨ck, cl⟩ := kl
    simp only [resolve_loop, Option.map_none] at heq
    cases hlook : txnStatus.lookup cl.ts with
    | none => simp only [hlook] at heq; exact PRes.noConfusion heq
    | some cts =>
      simp only [hlook] at heq
      cases hcall : resolve_key_call commitStep rollbackStep ck cl cts with
      | panicked => simp only [hcall] at heq; exact PRes.noConfusion heq
      | err e => simp only [hcall] at heq; exact PRes.noConfusion heq
      | ok ms =>
        simp only [hcall] at heq
        by_cases hws : ws + listWriteSize ms ≥ MAX_TXN_WRITE_SIZE
        · rw [if_pos hws] at heq
          simp only [PRes.ok.injEq, Prod.mk.injEq] at heq
          exact heq.1.symm
        · rw [if_neg hws] at heq
          exact ih _ _ _ _ _ _ heq

/-- With a lock manager, the `ResolveLock` loop's bucket map stays present,
and is non-empty as soon as it starts non-empty or at least one entry is
processed. -/
theorem resolve_loop_some_t (hash : RawKey → Nat) (hasWaiter : Bool)
    (commitStep : TS → RawKey → TS → TxnCallRes) (rollbackStep : TS → RawKey → TxnCallRes)
    (txnStatus : List (TS × TS)) :
    ∀ (ks : List (RawKey × LockRec)) (m : TxnToKeys) (mods : List Modify) (ws : Nat)
      (sk : Option RawKey) (t2 : Option TxnToKeys) (mods2 : List Modify)
      (sk2 : Option RawKey),
      resolve_loop hash hasWaiter commitStep rollbackStep txnStatus ks (some m) mods ws sk =
        .ok (t2, mods2, sk2) →
      ∃ m2, t2 = some m2 ∧ ((m ≠ [] ∨ ks ≠ []) → m2 ≠ []) := by
  intro ks
  induction ks with
  | nil =>
    intro m mods ws sk t2 mods2 sk2 heq
    simp only [resolve_loop, PRes.ok.injEq, Prod.mk.injEq] at heq
    refine ⟨m, heq.1.symm, ?_⟩
    intro hne
    rcases hne with h | h
    · exact h
    · exact absurd rfl h
  | cons kl rest ih =>
    intro m mods ws sk t2 mods2 sk2 heq
    obtain ⟨ck, cl⟩ := kl
    simp only [resolve_loop, Option.map_some] at heq
    have hupd := txn_to_keys_update_ne_nil hasWaiter m
      (cl.ts, cl.forUpdateTs != 0) (hash ck)
    cases hlook : txnStatus.lookup cl.ts with
    | none => simp only [hlook] at heq; exact PRes.noConfusion heq
    | some cts =>
      simp only [hlook] at heq
      cases hcall : resolve_key_call commitStep rollbackStep ck cl cts with
      | panicked => simp only [hcall] at heq; exact PRes.noConfusion heq
      | err e => simp only [hcall] at heq; exact PRes.noConfusion heq
      | ok ms =>
        simp only [hcall] at heq
        by_cases hws : ws + listWriteSize ms ≥ MAX_TXN_WRITE_SIZE
        · rw [if_pos hws] at heq
          simp only [PRes.ok.injEq, Prod.mk.injEq] at heq
          exact ⟨_, heq.1.symm, fun _ => hupd⟩
        · rw [if_neg hws] at heq
          obtain ⟨m2, hm2, hne⟩ := ih _ _ _ _ _ _ _ heq
          exact ⟨m2, hm2, fun _ => hne (Or.inl hupd)⟩

/-- A non-empty bucket map issues at least one wake-up call when a lock
manager is present. -/
theorem resolve_wake_ups_ne_nil (lm : LockMgr) (m : TxnToKeys) (hm : m ≠ []) :
    resolve_wake_ups (some lm) (some m) ≠ [] := by
  cases m with
  | nil => exact absurd rfl hm
  | cons e rest => simp [resolve_wake_ups, wake_up_waiters_if_needed]

/-- With no lock manager no wake-up is ever issued. -/
theorem resolve_wake_ups_none (t : Option TxnToKeys) :
    resolve_wake_ups none t = [] := by
  cases t with
  | none => rfl
  | some m =>
    induction m with
    | nil => rfl
    | cons e rest ih => simpa [resolve_wake_ups, wake_up_waiters_if_needed] using ih

/-- Specialisation of the `ResolveLock` arm for an absent lock manager. -/
theorem process_resolve_lock_none_eq (hash : RawKey → Nat) (o : MvccOracle)
    (txnStatus : List (TS × TS)) (scanKey : Option RawKey)
    (keyLocks : List (RawKey × LockRec)) :
    process_write_impl hash o none (.resolveLock txnStatus scanKey keyLocks) =
      (match resolve_loop hash false o.commitStep o.rollbackStep txnStatus keyLocks
          none [] 0 scanKey with
       | .panicked => .panicked
       | .err e => .err e
       | .ok (t, mods, scanKeyOut) =>
         .ok ⟨⟨mods, keyLocks.length,
           (match scanKeyOut with
            | none => ProcessResult.res
            | some k => ProcessResult.nextCommand (.resolveLock txnStatus (some k) [])), none⟩,
           resolve_wake_ups none t⟩) := rfl

/-- Specialisation of the `ResolveLock` arm for a present lock manager. -/
theorem process_resolve_lock_some_eq (hash : RawKey → Nat) (o : MvccOracle)
    (lm : LockMgr) (txnStatus : List (TS × TS)) (scanKey : Option RawKey)
    (keyLocks : List (RawKey × LockRec)) :
    process_write_impl hash o (some lm) (.resolveLock txnStatus scanKey keyLocks) =
      (match resolve_loop hash lm.hasWaiter o.commitStep o.rollbackStep txnStatus keyLocks
          (some []) [] 0 scanKey with
       | .panicked => .panicked
       | .err e => .err e
       | .ok (t, mods, scanKeyOut) =>
         .ok ⟨⟨mods, keyLocks.length,
           (match scanKeyOut with
            | none => ProcessResult.res
            | some k => ProcessResult.nextCommand (.resolveLock txnStatus (some k) [])), none⟩,
           resolve_wake_ups (some lm) t⟩) := rfl

/-- The commands that may have released a lock, per the spec's release
classification; for `CheckTxnStatus` release depends on the returned status,
read off the produced `ProcessResult`. -/
def may_release (cmd : CommandKind) (prOut : ProcessResult) : Prop :=
  match cmd with
  | .commit .. => True
  | .cleanup .. => True
  | .rollback .. => True
  | .pessimisticRollback .. => True
  | .resolveLockLite .. => True
  | .resolveLock _ _ keyLocks => keyLocks ≠ []
  | .checkTxnStatus .. =>
      prOut = .txnStatusRes .ttlExpire ∨ prOut = .txnStatusRes .lockNotExist
  | _ => False

/-- Claim C7 (amended): on a successful write command, `wake_up` is invoked
iff a lock manager is attached and the command may have released a lock —
regardless of `has_waiter`, which only controls whether `key_hashes` is
present; `PessimisticRollback` requires a lock manager and always wakes with
`is_pessimistic_txn = true`; for `CheckTxnStatus`, wake-up happens exactly
when the returned status is `TtlExpire` or `LockNotExist`. -/
theorem wake_up_iff_may_release :
    ∀ (hash : RawKey → Nat) (o : MvccOracle) (lockMgr : Option LockMgr)
      (cmd : CommandKind) (out : WriteOutput),
      process_write_impl hash o lockMgr cmd = .ok out →
      ((out.wakeUps ≠ [] ↔ lockMgr.isSome = true ∧ may_release cmd out.result.pr) ∧
       (∀ (keys : List RawKey) (startTs forUpdateTs : TS),
         cmd = .pessimisticRollback keys startTs forUpdateTs →
         lockMgr.isSome = true ∧ ∀ c ∈ out.wakeUps, c.isPessimisticTxn = true)) := by
  intro hash o lockMgr cmd out hp
  cases cmd with
  | prewrite mutations primary startTs options =>
    rw [process_prewrite_eq] at hp
    split at hp
    · exact PRes.noConfusion hp
    · exact PRes.noConfusion hp
    · split at hp <;>
        (injection hp with hout; subst hout;
         exact ⟨by simp [may_release], fun k2 s2 f2 h2 => CommandKind.noConfusion h2⟩)
  | acquirePessimisticLock keys primary startTs options =>
    simp only [process_write_impl] at hp
    split at hp
    · exact PRes.noConfusion hp
    · exact PRes.noConfusion hp
    · split at hp
      · injection hp with hout; subst hout
        exact ⟨by simp [may_release], fun k2 s2 f2 h2 => CommandKind.noConfusion h2⟩
      · split at hp
        · exact PRes.noConfusion hp
        · injection hp with hout; subst hout
          exact ⟨by simp [may_release], fun k2 s2 f2 h2 => CommandKind.noConfusion h2⟩
  | commit keys lockTs commitTs =>
    simp only [process_write_impl] at hp
    by_cases hc : commitTs ≤ lockTs
    · rw [if_pos hc] at hp; exact PRes.noConfusion hp
    · rw [if_neg hc] at hp
      cases hl : commit_loop (fun k => o.commitStep lockTs k commitTs) keys false [] with
      | panicked => simp only [hl] at hp; exact PRes.noConfusion hp
      | err e => simp only [hl] at hp; exact PRes.noConfusion hp
      | ok p =>
        obtain ⟨b, mods⟩ := p
        simp only [hl] at hp
        injection hp with hout; subst hout
        refine ⟨?_, fun k2 s2 f2 h2 => CommandKind.noConfusion h2⟩
        cases lockMgr with
        | none => simp [wake_up_waiters_if_needed, may_release]
        | some lm => simp [wake_up_waiters_if_needed, may_release]
  | cleanup key startTs currentTs =>
    simp only [process_write_impl] at hp
    cases hl : o.cleanupStep startTs key currentTs with
    | ok b mods =>
      simp only [hl] at hp
      injection hp with hout; subst hout
      refine ⟨?_, fun k2 s2 f2 h2 => CommandKind.noConfusion h2⟩
      cases lockMgr with
      | none => simp [wake_up_waiters_if_needed, may_release]
      | some lm => simp [wake_up_waiters_if_needed, may_release]
    | err e => simp only [hl] at hp; exact PRes.noConfusion hp
  | rollback keys startTs =>
    simp only [process_write_impl] at hp
    cases hl : commit_loop (fun k => o.rollbackStep startTs k) keys false [] with
    | panicked => simp only [hl] at hp; exact PRes.noConfusion hp
    | err e => simp only [hl] at hp; exact PRes.noConfusion hp
    | ok p =>
      obtain ⟨b, mods⟩ := p
      simp only [hl] at hp
      injection hp with hout; subst hout
      refine ⟨?_, fun k2 s2 f2 h2 => CommandKind.noConfusion h2⟩
      cases lockMgr with
      | none => simp [wake_up_waiters_if_needed, may_release]
      | some lm => simp [wake_up_waiters_if_needed, may_release]
  | pessimisticRollback keys startTs forUpdateTs =>
    cases lockMgr with
    | none => simp only [process_write_impl] at hp; exact PRes.noConfusion hp
    | some lm =>
      simp only [process_write_impl] at hp
      cases hl : pessimistic_rollback_loop
          (fun k => o.pessimisticRollbackStep startTs k forUpdateTs) keys [] with
      | panicked => simp only [hl] at hp; exact PRes.noConfusion hp
      | err e => simp only [hl] at hp; exact PRes.noConfusion hp
      | ok mods =>
        simp only [hl] at hp
        injection hp with hout; subst hout
        refine ⟨by simp [wake_up_waiters_if_needed, may_release], ?_⟩
        intro k2 s2 f2 _
        refine ⟨rfl, ?_⟩
        intro c hc
        simp [wake_up_waiters_if_needed] at hc
        rw [hc]
  | resolveLock txnStatus scanKey keyLocks =>
    cases lockMgr with
    | none =>
      rw [process_resolve_lock_none_eq] at hp
      cases hl : resolve_loop hash false o.commitStep o.rollbackStep txnStatus keyLocks
          none [] 0 scanKey with
      | panicked => simp only [hl] at hp; exact PRes.noConfusion hp
      | err e => simp only [hl] at hp; exact PRes.noConfusion hp
      | ok trip =>
        obtain ⟨t, mods, sk2⟩ := trip
        simp only [hl] at hp
        injection hp with hout; subst hout
        have ht := resolve_loop_none_t hash false _ _ txnStatus keyLocks [] 0 scanKey
          t mods sk2 hl
        subst ht
        exact ⟨by simp [resolve_wake_ups, may_release],
          fun k2 s2 f2 h2 => CommandKind.noConfusion h2⟩
    | some lm =>
      rw [process_resolve_lock_some_eq] at hp
      cases hl : resolve_loop hash lm.hasWaiter o.commitStep o.rollbackStep txnStatus
          keyLocks (some []) [] 0 scanKey with
      | panicked => simp only [hl] at hp; exact PRes.noConfusion hp
      | err e => simp only [hl] at hp; exact PRes.noConfusion hp
      | ok trip =>
        obtain ⟨t, mods, sk2⟩ := trip
        simp only [hl] at hp
        injection hp with hout; subst hout
        obtain ⟨m2, hm2, hne⟩ := resolve_loop_some_t hash lm.hasWaiter _ _ txnStatus
          keyLocks [] [] 0 scanKey t mods sk2 hl
        subst hm2
        refine ⟨?_, fun k2 s2 f2 h2 => CommandKind.noConfusion h2⟩
        constructor
        · intro hw
          refine ⟨rfl, ?_⟩
          intro hkl
          subst hkl
          simp only [resolve_loop, PRes.ok.injEq, Prod.mk.injEq] at hl
          apply hw
          rw [← hl.1]
          rfl
        · rintro ⟨_, hkl⟩
          exact resolve_wake_ups_ne_nil lm m2 (hne (Or.inr hkl))
  | resolveLockLite startTs commitTs resolveKeys =>
    simp only [process_write_impl] at hp
    cases hl : commit_loop
        (fun k => if commitTs ≠ 0 then o.commitStep startTs k commitTs
                  else o.rollbackStep startTs k) resolveKeys false [] with
    | panicked => simp only [hl] at hp; exact PRes.noConfusion hp
    | err e => simp only [hl] at hp; exact PRes.noConfusion hp
    | ok p =>
      obtain ⟨b, mods⟩ := p
      simp only [hl] at hp
      injection hp with hout; subst hout
      refine ⟨?_, fun k2 s2 f2 h2 => CommandKind.noConfusion h2⟩
      cases lockMgr with
      | none => simp [wake_up_waiters_if_needed, may_release]
      | some lm => simp [wake_up_waiters_if_needed, may_release]
  | txnHeartBeat primaryKey startTs adviseTtl =>
    simp only [process_write_impl] at hp
    cases hl : o.txnHeartBeatStep startTs primaryKey adviseTtl with
    | ok ttl mods =>
      simp only [hl] at hp
      injection hp with hout; subst hout
      exact ⟨by simp [may_release], fun k2 s2 f2 h2 => CommandKind.noConfusion h2⟩
    | err e => simp only [hl] at hp; exact PRes.noConfusion hp
  | checkTxnStatus primaryKey lockTs callerStartTs currentTs rollbackIfNotExist =>
    simp only [process_write_impl] at hp
    cases hl : o.checkTxnStatusStep lockTs primaryKey callerStartTs currentTs
        rollbackIfNotExist with
    | err e => simp only [hl] at hp; exact PRes.noConfusion hp
    | ok st b mods =>
      simp only [hl] at hp
      cases st with
      | rolledBack =>
        injection hp with hout; subst hout
        exact ⟨by simp [may_release], fun k2 s2 f2 h2 => CommandKind.noConfusion h2⟩
      | ttlExpire =>
        injection hp with hout; subst hout
        refine ⟨?_, fun k2 s2 f2 h2 => CommandKind.noConfusion h2⟩
        cases lockMgr with
        | none => simp [wake_up_waiters_if_needed, may_release]
        | some lm => simp [wake_up_waiters_if_needed, may_release]
      | lockNotExist =>
        injection hp with hout; subst hout
        refine ⟨?_, fun k2 s2 f2 h2 => CommandKind.noConfusion h2⟩
        cases lockMgr with
        | none => simp [wake_up_waiters_if_needed, may_release]
        | some lm => simp [wake_up_waiters_if_needed, may_release]
      | committed cts2 =>
        injection hp with hout; subst hout
        exact ⟨by simp [may_release], fun k2 s2 f2 h2 => CommandKind.noConfusion h2⟩
      | uncommitted ttl mct =>
        injection hp with hout; subst hout
        exact ⟨by simp [may_release], fun k2 s2 f2 h2 => CommandKind.noConfusion h2⟩
  | pause duration =>
    simp only [process_write_impl] at hp
    injection hp with hout; subst hout
    exact ⟨by simp [may_release], fun k2 s2 f2 h2 => CommandKind.noConfusion h2⟩

/-- Counterexample to C7 as stated: a `Commit` under a lock manager whose
`has_waiter` is `false` still invokes `wake_up` (with `key_hashes = None`),
refuting "wake-up is invoked only if the waiter manager has waiters". -/
theorem commit_wakes_without_waiters :
    process_write_impl hash0 oracle0 (some { hasWaiter := false }) (.commit [[1]] 1 2) =
      .ok ⟨⟨[], 1, .txnStatusRes (.committed 2), none⟩,
        [{ lockTs := 1, keyHashes := none, commitTs := 2, isPessimisticTxn := false }]⟩ := by
  decide

/-- Witness for C7 (amended): the iff instantiated at a concrete `Commit`
under a no-waiter lock manager. -/
theorem wake_up_iff_may_release_witness :
    (([⟨1, none, 2, false⟩] : List WakeUpCall) ≠ [] ↔
      (some { hasWaiter := false } : Option LockMgr).isSome = true ∧
        may_release (.commit [[1]] 1 2) (.txnStatusRes (.committed 2))) := by
  have h := wake_up_iff_may_release hash0 oracle0 (some { hasWaiter := false })
    (.commit [[1]] 1 2)
    ⟨⟨[], 1, .txnStatusRes (.committed 2), none⟩, [⟨1, none, 2, false⟩]⟩
    (by decide)
  exact h.1

end TxnProcess
